import Mathlib

/-!
# Verification of the StdioTransport runtime engine (src/src/mcp/StdioTransport.cpp)

Shallow embedding of the stdio JSON-RPC transport: the frame codec
(`makeFrame` / `extractFrame` / `drainFrames`), the bounded write queue
(`enqueueFrame` / `dequeueNextFrame` / `accountWritten`), the request
correlation and deadline machinery (`handleResponse`, the timeout-thread
expiry sweep, `Close`), the message dispatcher (`processMessage`) and the
facade entry point `SendRequest`.

Byte buffers are modelled as `List Char` (the C++ code stores bytes in
`std::string`); machine sizes (`std::size_t`, `unsigned long long`) are
modelled as `Nat` with explicit bounds where the code checks them.
-/

/-! ## Character classes used by the C++ header parsing -/

/-- C locale `isspace` on the characters relevant here. -/
def isSpaceC (c : Char) : Bool :=
  c = ' ' || c = '\t' || c = '\n' || c = Char.ofNat 11 || c = Char.ofNat 12 || c = '\r'

def isDigitC (c : Char) : Bool :=
  '0' ≤ c && c ≤ '9'

/-- C locale `tolower` (only ASCII letters are affected). -/
def toLowerC (c : Char) : Char :=
  if 'A' ≤ c ∧ c ≤ 'Z' then Char.ofNat (c.toNat + 32) else c

/-! ## Substring search, modelling `std::string::find` -/

/-- Boolean test that `pat` is a prefix of `s`. -/
def isPrefB : List Char → List Char → Bool
  | [], _ => true
  | _ :: _, [] => false
  | p :: ps, c :: cs => p = c && isPrefB ps cs

/-- Index of the first occurrence of `pat` in `s`
    (`std::string::find(pat)`; `none` models `npos`). -/
def findSub (pat : List Char) : List Char → Option Nat
  | [] => if isPrefB pat [] then some 0 else none
  | c :: rest =>
    if isPrefB pat (c :: rest) then some 0
    else (findSub pat rest).map (· + 1)

/-- `std::string::find(pat, pos)`: first occurrence at index ≥ `pos`. -/
def findSubFrom (pat s : List Char) (pos : Nat) : Option Nat :=
  (findSub pat (s.drop pos)).map (· + pos)

/-! ## Decimal digits: `std::to_string` on unsigned values, `std::stoull` -/

def digitChar : Nat → Char
  | 0 => '0' | 1 => '1' | 2 => '2' | 3 => '3' | 4 => '4'
  | 5 => '5' | 6 => '6' | 7 => '7' | 8 => '8' | _ => '9'

def toDecAux : Nat → Nat → List Char
  | 0, _ => []
  | fuel + 1, n =>
    if n < 10 then [digitChar n]
    else toDecAux fuel (n / 10) ++ [digitChar (n % 10)]

/-- Decimal representation of `n`, as `std::to_string` produces for an
    unsigned integer.  `n + 1` units of fuel strictly exceed the number of
    recursive steps (each step divides by 10). -/
def toDec (n : Nat) : List Char := toDecAux (n + 1) n

/-- Numeric value of a digit string (most significant digit first). -/
def decValue (ds : List Char) : Nat :=
  ds.foldl (fun a c => a * 10 + (c.toNat - 48)) 0

/-- `ULLONG_MAX` = `std::numeric_limits<std::size_t>::max()` on the 64-bit
    target (`unsigned long long` and `size_t` are both 64 bits wide). -/
def USizeMax : Nat := 2 ^ 64 - 1

/-- Model of `std::stoull(s)` (base 10): skip leading whitespace, optional
    sign (a minus sign wraps the value modulo 2^64), then the longest digit
    prefix; `none` models the `invalid_argument` / `out_of_range`
    exceptions caught by the C++ code. -/
def stoullModel (s : List Char) : Option Nat :=
  match s.dropWhile isSpaceC with
  | [] => none
  | c :: t =>
    let p := if c = '-' then (true, t) else if c = '+' then (false, t) else (false, c :: t)
    let ds := p.2.takeWhile isDigitC
    if ds = [] then none
    else if USizeMax < decValue ds then none
    else some (if p.1 then (2 ^ 64 - decValue ds) % 2 ^ 64 else decValue ds)

/-- `value.erase(value.begin(), find_if(value, not isspace))`. -/
def leftTrim (s : List Char) : List Char := s.dropWhile isSpaceC

/-! ## The frame codec -/

/-- `StdioTransport::Impl::MaxContentLength` (1 MiB). -/
def MaxContentLength : Nat := 1024 * 1024

def sepL : List Char := ['\r', '\n', '\r', '\n']

def crlfL : List Char := ['\r', '\n']

def clPrefixL : List Char := "Content-Length: ".toList

/-- Header line of a frame for a body of `n` bytes. -/
def headerFor (n : Nat) : List Char := clPrefixL ++ toDec n

/-- `StdioTransport::Impl::makeFrame`:
    `"Content-Length: " + to_string(payload.size()) + "\r\n\r\n" + payload`. -/
def makeFrame (payload : List Char) : List Char :=
  headerFor payload.length ++ sepL ++ payload

/-- Outcome of the header-region scanning loop inside `extractFrame`:
    `tooLarge` models the early `return` after reporting
    "body too large"; `done len` models falling out of the loop with
    `haveLength`/`contentLength` captured in `len`. -/
inductive HdrOut where
  | tooLarge
  | done (len : Option Nat)
  deriving DecidableEq, Repr

/-- One `name: value` header line of `extractFrame`'s loop body: find the
    colon, lowercase the name, left-trim the value; on a `content-length`
    name run `stoull` (the `catch` keeps the previous state), and signal
    the early-return when the value exceeds the limits. -/
def processLine (line : List Char) (acc : Option Nat) : Except Unit (Option Nat) :=
  match findSub [':'] line with
  | none => .ok acc
  | some colon =>
    let name := (line.take colon).map toLowerC
    let value := leftTrim (line.drop (colon + 1))
    if name = "content-length".toList then
      match stoullModel value with
      | none => .ok acc
      | some v =>
        if MaxContentLength < v ∨ USizeMax < v then .error () else .ok (some v)
    else .ok acc

/-- The header-scanning `while (pos < headerEnd)` loop of `extractFrame`.
    Each iteration advances `pos` past a `\r\n`-terminated line (by at
    least 2), so `headerEnd + 1` units of fuel strictly exceed the number
    of iterations; the fuel-exhausted branch is unreachable from
    `extractFrame`. -/
def parseHeadersAux (buf : List Char) (headerEnd : Nat) :
    Nat → Nat → Option Nat → HdrOut
  | 0, _, acc => .done acc
  | fuel + 1, pos, acc =>
    if pos < headerEnd then
      match findSubFrom crlfL buf pos with
      | none => .done acc
      | some eol =>
        if headerEnd < eol then .done acc
        else
          match processLine ((buf.drop pos).take (eol - pos)) acc with
          | .error _ => .tooLarge
          | .ok a => parseHeadersAux buf headerEnd fuel (eol + 2) a
    else .done acc

/-- Result of `StdioTransport::Impl::extractFrame` on a buffer: the
    optional payload, the mutated buffer, and the messages passed to the
    (optional) `errorHandler` during the call. -/
structure ExtractResult where
  payload : Option (List Char)
  buf : List Char
  errs : List String
  deriving DecidableEq, Repr

/-- `StdioTransport::Impl::extractFrame`.  Scans for the first
    `\r\n\r\n`; absent → NeedMore (buffer untouched).  Otherwise parses
    the header region line by line.  A too-large `Content-Length` drops
    the header region and reports "body too large" to the error handler;
    a missing (or unparseable) `Content-Length` drops the header region
    with only a log; a not-yet-complete body → NeedMore (buffer
    untouched); otherwise the body is taken and the buffer advanced past
    the whole frame. -/
def extractFrame (buf : List Char) : ExtractResult :=
  match findSub sepL buf with
  | none => ⟨none, buf, []⟩
  | some headerEnd =>
    match parseHeadersAux buf headerEnd (headerEnd + 1) 0 none with
    | .tooLarge => ⟨none, buf.drop (headerEnd + 4), ["StdioTransport: body too large"]⟩
    | .done none => ⟨none, buf.drop (headerEnd + 4), []⟩
    | .done (some contentLength) =>
      let headerAndSep := headerEnd + 4
      if USizeMax - headerAndSep < contentLength then
        ⟨none, buf.drop (headerEnd + 4), []⟩
      else if buf.length < headerAndSep + contentLength then
        ⟨none, buf, []⟩
      else
        ⟨some ((buf.drop headerAndSep).take contentLength),
         buf.drop (headerAndSep + contentLength), []⟩

/-! ## Helper lemmas: prefixes, substring search, take/drop arithmetic -/

theorem isPrefB_self_append (p t : List Char) : isPrefB p (p ++ t) = true := by
  induction p with
  | nil => rfl
  | cons c cs ih => simp [isPrefB, ih]

theorem isPrefB_length : ∀ {p s : List Char}, isPrefB p s = true → p.length ≤ s.length := by
  intro p
  induction p with
  | nil => intro s _; exact Nat.zero_le _
  | cons c cs ih =>
    intro s h
    cases s with
    | nil => simp [isPrefB] at h
    | cons d ds =>
      simp only [isPrefB, Bool.and_eq_true] at h
      simpa [Nat.succ_le_succ_iff] using ih h.2

theorem findSub_append_of_head_notin {h : Char} {pt xs ys : List Char}
    (hy : isPrefB (h :: pt) ys = true) (hx : h ∉ xs) :
    findSub (h :: pt) (xs ++ ys) = some xs.length := by
  induction xs with
  | nil =>
    cases ys with
    | nil => simp [isPrefB] at hy
    | cons c cs => simp [findSub, hy]
  | cons x xs ih =>
    have hxh : ¬ (h = x) := fun he => hx (he ▸ List.mem_cons_self x xs)
    have hxs : h ∉ xs := fun hm => hx (List.mem_cons_of_mem _ hm)
    simp [findSub, isPrefB, hxh, ih hxs]

theorem findSub_short {pat : List Char} : ∀ {s : List Char},
    s.length < pat.length → findSub pat s = none := by
  intro s
  induction s with
  | nil =>
    intro h
    cases pat with
    | nil => simp at h
    | cons p ps => simp [findSub, isPrefB]
  | cons c cs ih =>
    intro h
    have hpre : ¬ isPrefB pat (c :: cs) = true := fun hp =>
      absurd (isPrefB_length hp) (by omega)
    simp [findSub, hpre, ih (by simp at h ⊢; omega)]

theorem findSub_none_append {h : Char} {pt xs t : List Char}
    (hx : h ∉ xs) (ht : t.length < (h :: pt).length) :
    findSub (h :: pt) (xs ++ t) = none := by
  induction xs with
  | nil => exact findSub_short ht
  | cons x xs ih =>
    have hxh : ¬ (h = x) := fun he => hx (he ▸ List.mem_cons_self x xs)
    have hxs : h ∉ xs := fun hm => hx (List.mem_cons_of_mem _ hm)
    have hpre : ¬ isPrefB (h :: pt) (x :: (xs ++ t)) = true := by
      simp [isPrefB, hxh]
    simp [findSub, hpre, ih hxs]

theorem findSub_singleton_none {c : Char} : ∀ {s : List Char},
    c ∉ s → findSub [c] s = none := by
  intro s
  induction s with
  | nil => intro _; rfl
  | cons x xs ih =>
    intro h
    have hcx : ¬ (c = x) := fun he => h (he ▸ List.mem_cons_self x xs)
    simp [findSub, isPrefB, hcx, ih (fun hm => h (List.mem_cons_of_mem _ hm))]

theorem take_len_append {α : Type} (xs ys : List α) : (xs ++ ys).take xs.length = xs := by
  induction xs with
  | nil => rfl
  | cons x xs ih => simp [ih]

theorem drop_len_append {α : Type} (xs ys : List α) : (xs ++ ys).drop xs.length = ys := by
  induction xs with
  | nil => rfl
  | cons x xs ih => simp [ih]

theorem take_append_le {α : Type} : ∀ (n : Nat) (xs ys : List α), n ≤ xs.length →
    (xs ++ ys).take n = xs.take n := by
  intro n
  induction n with
  | zero => intro xs ys _; simp
  | succ n ih =>
    intro xs ys h
    cases xs with
    | nil => simp at h
    | cons x xs => simp only [List.cons_append, List.take_succ_cons]
                   rw [ih xs ys (by simpa using h)]

theorem drop_append_le {α : Type} : ∀ (n : Nat) (xs ys : List α), n ≤ xs.length →
    (xs ++ ys).drop n = xs.drop n ++ ys := by
  intro n
  induction n with
  | zero => intro xs ys _; simp
  | succ n ih =>
    intro xs ys h
    cases xs with
    | nil => simp at h
    | cons x xs => simp only [List.cons_append, List.drop_succ_cons]
                   exact ih xs ys (by simpa using h)

theorem drop_len_append_cons {α : Type} (xs : List α) (c : α) (ys : List α) :
    (xs ++ c :: ys).drop (xs.length + 1) = ys := by
  have : xs ++ c :: ys = (xs ++ [c]) ++ ys := by simp
  rw [this, show xs.length + 1 = (xs ++ [c]).length by simp, drop_len_append]

/-! ## Helper lemmas: decimal digits -/

theorem digitChar_isDigit (d : Nat) : isDigitC (digitChar d) = true := by
  unfold digitChar
  split <;> decide

theorem digitChar_toNat {d : Nat} (h : d < 10) : (digitChar d).toNat - 48 = d := by
  interval_cases d <;> decide

theorem toDecAux_congr : ∀ (n f₁ f₂ : Nat), n < f₁ → n < f₂ →
    toDecAux f₁ n = toDecAux f₂ n := by
  intro n
  induction n using Nat.strong_induction_on with
  | _ n ih =>
    intro f₁ f₂ h₁ h₂
    match f₁, f₂ with
    | g₁ + 1, g₂ + 1 =>
      simp only [toDecAux]
      split
      · rfl
      · rename_i hn
        have hd : n / 10 < n := Nat.div_lt_self (by omega) (by omega)
        rw [ih (n / 10) hd g₁ g₂ (by omega) (by omega)]

theorem toDec_small {n : Nat} (h : n < 10) : toDec n = [digitChar n] := by
  simp [toDec, toDecAux, h]

theorem toDec_step {n : Nat} (h : ¬ n < 10) :
    toDec n = toDec (n / 10) ++ [digitChar (n % 10)] := by
  have h1 : toDec n = toDecAux n (n / 10) ++ [digitChar (n % 10)] := by
    rw [toDec]
    simp only [toDecAux, h, if_false]
  rw [h1, toDecAux_congr (n / 10) n (n / 10 + 1)
        (Nat.div_lt_self (by omega) (by omega)) (by omega)]
  rfl

theorem toDec_digits : ∀ n, ∀ c ∈ toDec n, isDigitC c = true := by
  intro n
  induction n using Nat.strong_induction_on with
  | _ n ih =>
    intro c hc
    by_cases h : n < 10
    · rw [toDec_small h] at hc
      simp at hc
      exact hc ▸ digitChar_isDigit n
    · rw [toDec_step h] at hc
      rcases List.mem_append.1 hc with h1 | h2
      · exact ih (n / 10) (Nat.div_lt_self (by omega) (by omega)) c h1
      · simp at h2
        exact h2 ▸ digitChar_isDigit (n % 10)

theorem toDec_ne_nil (n : Nat) : toDec n ≠ [] := by
  by_cases h : n < 10
  · rw [toDec_small h]; simp
  · rw [toDec_step h]; simp

theorem decValue_append_digit (ds : List Char) (c : Char) :
    decValue (ds ++ [c]) = decValue ds * 10 + (c.toNat - 48) := by
  simp [decValue, List.foldl_append]

theorem toDec_decValue : ∀ n, decValue (toDec n) = n := by
  intro n
  induction n using Nat.strong_induction_on with
  | _ n ih =>
    by_cases h : n < 10
    · rw [toDec_small h]
      simp [decValue, digitChar_toNat h]
    · rw [toDec_step h, decValue_append_digit,
          ih (n / 10) (Nat.div_lt_self (by omega) (by omega)),
          digitChar_toNat (Nat.mod_lt n (by omega))]
      omega

theorem toDec_length_le : ∀ n, (toDec n).length ≤ n + 1 := by
  intro n
  induction n using Nat.strong_induction_on with
  | _ n ih =>
    by_cases h : n < 10
    · rw [toDec_small h]; simp
    · rw [toDec_step h]
      have := ih (n / 10) (Nat.div_lt_self (by omega) (by omega))
      simp only [List.length_append, List.length_cons, List.length_nil]
      omega

/-! ## Helper lemmas: character classes and `stoull` on digit strings -/

theorem digit_not_space {c : Char} (h : isDigitC c = true) : isSpaceC c = false := by
  rcases Bool.eq_false_or_eq_true (isSpaceC c) with hs | hs
  · exfalso
    simp only [isSpaceC, Bool.or_eq_true, decide_eq_true_eq] at hs
    rcases hs with ((((h1 | h1) | h1) | h1) | h1) | h1 <;> subst h1 <;>
      exact absurd h (by decide)
  · exact hs

theorem digit_ne {c x : Char} (h : isDigitC c = true) (hx : isDigitC x = false) :
    c ≠ x := by
  intro he
  rw [he, hx] at h
  exact Bool.noConfusion h

theorem not_mem_toDec {x : Char} (hx : isDigitC x = false) (n : Nat) : x ∉ toDec n := by
  intro hm
  have h := toDec_digits n x hm
  rw [hx] at h
  exact Bool.noConfusion h

theorem takeWhile_all {α : Type} (p : α → Bool) : ∀ l : List α,
    (∀ c ∈ l, p c = true) → l.takeWhile p = l := by
  intro l
  induction l with
  | nil => intro _; rfl
  | cons x xs ih =>
    intro h
    simp [List.takeWhile_cons, h x (List.mem_cons_self x xs),
          ih (fun c hc => h c (List.mem_cons_of_mem _ hc))]

theorem toDec_dropWhile (n : Nat) : (toDec n).dropWhile isSpaceC = toDec n := by
  cases hct : toDec n with
  | nil => rfl
  | cons c t =>
    have hc : isDigitC c = true := toDec_digits n c (hct ▸ List.mem_cons_self c t)
    rw [List.dropWhile_cons, digit_not_space hc]
    simp

theorem stoull_toDec {n : Nat} (h : n ≤ USizeMax) : stoullModel (toDec n) = some n := by
  obtain ⟨c, t, hct⟩ : ∃ c t, toDec n = c :: t := by
    cases hd : toDec n with
    | nil => exact absurd hd (toDec_ne_nil n)
    | cons c t => exact ⟨c, t, rfl⟩
  have hdig : ∀ x ∈ c :: t, isDigitC x = true := fun x hx => toDec_digits n x (hct ▸ hx)
  have hc : isDigitC c = true := hdig c (List.mem_cons_self c t)
  have hdrop : (toDec n).dropWhile isSpaceC = c :: t := by rw [← hct]; exact toDec_dropWhile n
  have hneg : ¬ (c = '-') := digit_ne hc (by decide)
  have hpos : ¬ (c = '+') := digit_ne hc (by decide)
  have htake : (c :: t).takeWhile isDigitC = c :: t := takeWhile_all _ _ hdig
  have hval : decValue (c :: t) = n := hct ▸ toDec_decValue n
  rw [stoullModel, hdrop]
  simp only [hneg, if_false, hpos, htake, hval]
  rw [if_neg (by simp), if_neg (by omega)]
  rfl

/-! ## Helper lemmas: the Content-Length header line -/

theorem notin_headerFor (n : Nat) : '\r' ∉ headerFor n := by
  intro hm
  rcases List.mem_append.1 hm with h1 | h2
  · exact absurd h1 (by decide)
  · exact absurd (toDec_digits n _ h2) (by decide)

theorem findSub_sep_at_header {xs tail : List Char} (hx : '\r' ∉ xs) :
    findSub sepL (xs ++ (sepL ++ tail)) = some xs.length :=
  findSub_append_of_head_notin (isPrefB_self_append sepL tail) hx

theorem findSub_crlf_at_header {xs tail : List Char} (hx : '\r' ∉ xs) :
    findSub crlfL (xs ++ (sepL ++ tail)) = some xs.length := by
  have hy : isPrefB crlfL (sepL ++ tail) = true := by simp [isPrefB, sepL, crlfL]
  exact findSub_append_of_head_notin hy hx

theorem processLine_clHeader (n : Nat) (acc : Option Nat) (hn : n ≤ USizeMax) :
    processLine (headerFor n) acc =
      (if MaxContentLength < n then .error () else .ok (some n)) := by
  have hdecomp : headerFor n = "Content-Length".toList ++ (':' :: (' ' :: toDec n)) := by
    rw [headerFor, show clPrefixL = "Content-Length".toList ++ [':', ' '] from by decide,
        List.append_assoc]
    rfl
  have hcolon : findSub [':'] (headerFor n) = some ("Content-Length".toList).length := by
    rw [hdecomp]
    exact findSub_append_of_head_notin (by simp [isPrefB]) (by decide)
  have htake : (headerFor n).take ("Content-Length".toList).length =
      "Content-Length".toList := by
    rw [hdecomp]; exact take_len_append _ _
  have hdrop : (headerFor n).drop (("Content-Length".toList).length + 1) =
      ' ' :: toDec n := by
    rw [hdecomp]; exact drop_len_append_cons _ _ _
  have htrim : leftTrim (' ' :: toDec n) = toDec n := by
    rw [leftTrim, List.dropWhile_cons]
    simp only [show isSpaceC ' ' = true from by decide, if_true]
    exact toDec_dropWhile n
  rw [processLine, hcolon]
  simp only [htake, hdrop, htrim]
  rw [if_pos (show ("Content-Length".toList).map toLowerC = "content-length".toList
        from by decide), stoull_toDec hn]
  by_cases hM : MaxContentLength < n
  · simp [hM]
  · simp [hM, show ¬ USizeMax < n from by omega]

theorem parseHeadersAux_stop {buf : List Char} {headerEnd fuel pos : Nat} {acc : Option Nat}
    (h : ¬ pos < headerEnd) : parseHeadersAux buf headerEnd fuel pos acc = .done acc := by
  cases fuel <;> simp [parseHeadersAux, h]

theorem headerFor_length (n : Nat) : (headerFor n).length = 16 + (toDec n).length := by
  rw [headerFor, List.length_append, show clPrefixL.length = 16 from by decide]

theorem parseHeaders_clHeader (n : Nat) (tail : List Char) (hn : n ≤ USizeMax) :
    parseHeadersAux (headerFor n ++ (sepL ++ tail)) (headerFor n).length
      ((headerFor n).length + 1) 0 none =
      (if MaxContentLength < n then .tooLarge else .done (some n)) := by
  have hpos : 0 < (headerFor n).length := by
    rw [headerFor_length]; omega
  have hfind : findSubFrom crlfL (headerFor n ++ (sepL ++ tail)) 0 =
      some (headerFor n).length := by
    rw [findSubFrom, List.drop_zero, findSub_crlf_at_header (notin_headerFor n)]
    simp
  have hline : ((headerFor n ++ (sepL ++ tail)).drop 0).take ((headerFor n).length - 0) =
      headerFor n := by
    rw [List.drop_zero, Nat.sub_zero]
    exact take_len_append _ _
  rw [parseHeadersAux, if_pos hpos, hfind]
  simp only [lt_self_iff_false, if_false, hline, processLine_clHeader n none hn]
  by_cases hM : MaxContentLength < n
  · rw [if_pos hM, if_pos hM]
  · rw [if_neg hM, if_neg hM]
    exact parseHeadersAux_stop (by omega)

theorem take_append_ge {α : Type} : ∀ (k : Nat) (xs ys : List α), xs.length ≤ k →
    (xs ++ ys).take k = xs ++ ys.take (k - xs.length) := by
  intro k
  induction k with
  | zero =>
    intro xs ys h
    cases xs with
    | nil => simp
    | cons x xs => simp at h
  | succ k ih =>
    intro xs ys h
    cases xs with
    | nil => simp
    | cons x xs =>
      simp only [List.cons_append, List.take_succ_cons, List.length_cons]
      rw [ih xs ys (by simpa using h)]
      simp [Nat.succ_sub_succ]

/-! ## Behaviour of `extractFrame` on well-formed frames -/

/-- A complete well-formed frame followed by any suffix extracts to exactly
    its payload, leaving the suffix in the buffer and reporting nothing. -/
theorem extract_makeFrame (p rest : List Char) (hp : p.length ≤ MaxContentLength) :
    extractFrame (makeFrame p ++ rest) = ⟨some p, rest, []⟩ := by
  have hMv : MaxContentLength = 1048576 := by norm_num [MaxContentLength]
  have hUv : USizeMax = 18446744073709551615 := by norm_num [USizeMax]
  have hnU : p.length ≤ USizeMax := by omega
  have hassoc : makeFrame p ++ rest = headerFor p.length ++ (sepL ++ (p ++ rest)) := by
    simp [makeFrame]
  have hfind : findSub sepL (headerFor p.length ++ (sepL ++ (p ++ rest))) =
      some (headerFor p.length).length := findSub_sep_at_header (notin_headerFor _)
  have hparse := parseHeaders_clHeader p.length (p ++ rest) hnU
  rw [if_neg (by omega)] at hparse
  have hdl : (toDec p.length).length ≤ p.length + 1 := toDec_length_le _
  have hhe : (headerFor p.length).length = 16 + (toDec p.length).length :=
    headerFor_length _
  rw [hassoc]
  simp only [extractFrame, hfind, hparse]
  have h1 : ¬ (USizeMax - ((headerFor p.length).length + 4) < p.length) := by omega
  have h2 : ¬ ((headerFor p.length ++ (sepL ++ (p ++ rest))).length <
      (headerFor p.length).length + 4 + p.length) := by
    simp only [List.length_append, show sepL.length = 4 from rfl]
    omega
  rw [if_neg h1, if_neg h2]
  have hpay : ((headerFor p.length ++ (sepL ++ (p ++ rest))).drop
      ((headerFor p.length).length + 4)).take p.length = p := by
    rw [show headerFor p.length ++ (sepL ++ (p ++ rest)) =
          (headerFor p.length ++ sepL) ++ (p ++ rest) from by simp,
        show (headerFor p.length).length + 4 = (headerFor p.length ++ sepL).length from by
          simp [sepL],
        drop_len_append, take_len_append]
  have hrem : (headerFor p.length ++ (sepL ++ (p ++ rest))).drop
      ((headerFor p.length).length + 4 + p.length) = rest := by
    rw [show headerFor p.length ++ (sepL ++ (p ++ rest)) =
          ((headerFor p.length ++ sepL) ++ p) ++ rest from by simp,
        show (headerFor p.length).length + 4 + p.length =
          ((headerFor p.length ++ sepL) ++ p).length from by
            simp only [List.length_append, show sepL.length = 4 from rfl],
        drop_len_append]
  rw [hpay, hrem]

/-- A strict prefix of a well-formed frame never extracts and never
    mutates the buffer (NeedMore). -/
theorem extract_take_needMore (p : List Char) (k : Nat) (hp : p.length ≤ MaxContentLength)
    (hk : k < (makeFrame p).length) :
    extractFrame ((makeFrame p).take k) = ⟨none, (makeFrame p).take k, []⟩ := by
  have hMv : MaxContentLength = 1048576 := by norm_num [MaxContentLength]
  have hUv : USizeMax = 18446744073709551615 := by norm_num [USizeMax]
  have hnU : p.length ≤ USizeMax := by omega
  have hassoc : makeFrame p = headerFor p.length ++ (sepL ++ p) := by
    simp [makeFrame]
  have hmlen : (makeFrame p).length = (headerFor p.length).length + 4 + p.length := by
    rw [hassoc]
    simp only [List.length_append, show sepL.length = 4 from rfl]
    omega
  by_cases hsmall : k < (headerFor p.length).length + 4
  · -- the full header separator has not arrived: no "\r\n\r\n" in the buffer
    have hfind : findSub sepL ((makeFrame p).take k) = none := by
      by_cases hkh : k ≤ (headerFor p.length).length
      · have htk : (makeFrame p).take k = (headerFor p.length).take k := by
          rw [hassoc]; exact take_append_le k _ _ hkh
        have hnotin : '\r' ∉ (headerFor p.length).take k := fun hm =>
          notin_headerFor p.length (List.take_subset k _ hm)
        rw [htk, ← List.append_nil ((headerFor p.length).take k)]
        exact findSub_none_append hnotin (by simp [sepL])
      · have htk : (makeFrame p).take k =
            headerFor p.length ++ (sepL ++ p).take (k - (headerFor p.length).length) := by
          rw [hassoc]; exact take_append_ge k _ _ (by omega)
        have hlt : ((sepL ++ p).take (k - (headerFor p.length).length)).length < 4 := by
          rw [List.length_take]
          omega
        rw [htk]
        exact findSub_none_append (notin_headerFor _) (by simpa [sepL] using hlt)
    simp [extractFrame, hfind]
  · -- header and separator complete, but the body is still short
    have hk4 : (headerFor p.length).length + 4 ≤ k := by omega
    have htk : (makeFrame p).take k =
        headerFor p.length ++ (sepL ++ (p.take (k - (headerFor p.length).length - 4))) := by
      rw [hassoc, take_append_ge k _ _ (by omega),
          take_append_ge _ _ _ (by simp [sepL]; omega)]
      simp [sepL]
    have hfind : findSub sepL (headerFor p.length ++ (sepL ++
        (p.take (k - (headerFor p.length).length - 4)))) = some (headerFor p.length).length :=
      findSub_sep_at_header (notin_headerFor _)
    have hparse := parseHeaders_clHeader p.length
      (p.take (k - (headerFor p.length).length - 4)) hnU
    rw [if_neg (by omega)] at hparse
    have hblen : ((makeFrame p).take k).length = k := by
      rw [List.length_take]
      omega
    conv_lhs => rw [htk]
    simp only [extractFrame, hfind, hparse]
    have h1 : ¬ (USizeMax - ((headerFor p.length).length + 4) < p.length) := by
      have := toDec_length_le p.length
      have := headerFor_length p.length
      omega
    have h2 : (headerFor p.length ++ (sepL ++ p.take
        (k - (headerFor p.length).length - 4))).length <
        (headerFor p.length).length + 4 + p.length := by
      rw [← htk, hblen]
      omega
    rw [if_neg h1, if_pos h2, ← htk]

/-- A frame header declaring more than `MaxContentLength` bytes: the error
    handler is told "body too large", the header region (up to and
    including the separator) is dropped, and whatever follows stays. -/
theorem extract_tooLarge (n : Nat) (rest : List Char)
    (hM : MaxContentLength < n) (hU : n ≤ USizeMax) :
    extractFrame (headerFor n ++ (sepL ++ rest)) =
      ⟨none, rest, ["StdioTransport: body too large"]⟩ := by
  have hfind : findSub sepL (headerFor n ++ (sepL ++ rest)) = some (headerFor n).length :=
    findSub_sep_at_header (notin_headerFor n)
  have hparse := parseHeaders_clHeader n rest hU
  rw [if_pos hM] at hparse
  simp only [extractFrame, hfind, hparse]
  rw [show headerFor n ++ (sepL ++ rest) = (headerFor n ++ sepL) ++ rest from by simp,
      show (headerFor n).length + 4 = (headerFor n ++ sepL).length from by simp [sepL],
      drop_len_append]

/-- A header region with no `Content-Length` at all (here: no colon):
    the header region is dropped and extraction continues, but the error
    handler is NOT invoked (the C++ only logs a warning). -/
theorem extract_missingCL (hdr rest : List Char) (hr : '\r' ∉ hdr) (hc : ':' ∉ hdr) :
    extractFrame (hdr ++ (sepL ++ rest)) = ⟨none, rest, []⟩ := by
  have hfind : findSub sepL (hdr ++ (sepL ++ rest)) = some hdr.length :=
    findSub_sep_at_header hr
  have hparse : parseHeadersAux (hdr ++ (sepL ++ rest)) hdr.length
      (hdr.length + 1) 0 none = .done none := by
    by_cases h0 : hdr.length = 0
    · exact parseHeadersAux_stop (by omega)
    · have hfc : findSubFrom crlfL (hdr ++ (sepL ++ rest)) 0 = some hdr.length := by
        rw [findSubFrom, List.drop_zero, findSub_crlf_at_header hr]
        simp
      have hline : ((hdr ++ (sepL ++ rest)).drop 0).take (hdr.length - 0) = hdr := by
        rw [List.drop_zero, Nat.sub_zero]
        exact take_len_append _ _
      have hpl : processLine hdr none = .ok none := by
        rw [processLine, findSub_singleton_none hc]
      rw [parseHeadersAux, if_pos (by omega), hfc]
      simp only [lt_self_iff_false, if_false, hline, hpl]
      exact parseHeadersAux_stop (by omega)
  simp only [extractFrame, hfind, hparse]
  rw [show hdr ++ (sepL ++ rest) = (hdr ++ sepL) ++ rest from by simp,
      show hdr.length + 4 = (hdr ++ sepL).length from by simp [sepL],
      drop_len_append]

/-! ## `drainFrames` and the chunked reassembly of a frame stream -/

/-- The `while (connected) { extractFrame; processMessage }` loop of
    `StdioTransport::Impl::drainFrames`, with the payloads it delivers to
    `processMessage` collected in order.  A successful extraction consumes
    at least the four separator bytes, so `buf.length + 1` units of fuel
    strictly exceed the number of iterations. -/
def drainFramesAux : Nat → List Char → List Char × List (List Char)
  | 0, buf => (buf, [])
  | fuel + 1, buf =>
    let r := extractFrame buf
    match r.payload with
    | none => (r.buf, [])
    | some p =>
      let q := drainFramesAux fuel r.buf
      (q.1, p :: q.2)

def drainFrames (buf : List Char) : List Char × List (List Char) :=
  drainFramesAux (buf.length + 1) buf

/-- Concatenation of the encoded frames of a payload sequence. -/
def framesOf (ps : List (List Char)) : List Char :=
  (ps.map makeFrame).flatten

/-- Greatest prefix of `ps` whose frames fit entirely inside `buf`, and
    the remainder of `buf` after them. -/
def splitStream : List (List Char) → List Char → List (List Char) × List Char
  | [], buf => ([], buf)
  | p :: rest, buf =>
    if (makeFrame p).length ≤ buf.length then
      let pr := splitStream rest (buf.drop (makeFrame p).length)
      (p :: pr.1, pr.2)
    else ([], buf)

theorem framesOf_cons (p : List Char) (rest : List (List Char)) :
    framesOf (p :: rest) = makeFrame p ++ framesOf rest := by
  simp [framesOf]

theorem framesOf_append (a b : List (List Char)) :
    framesOf (a ++ b) = framesOf a ++ framesOf b := by
  simp [framesOf]

theorem makeFrame_length_pos (p : List Char) : 0 < (makeFrame p).length := by
  simp only [makeFrame, List.length_append, headerFor_length]
  omega

/-- `drainFrames` on any prefix of a valid frame stream extracts exactly
    the whole frames it holds and leaves the trailing partial frame. -/
theorem drainAux_stream : ∀ (ps : List (List Char)) (fuel : Nat) (buf t : List Char),
    (∀ q ∈ ps, q.length ≤ MaxContentLength) →
    buf ++ t = framesOf ps → buf.length < fuel →
    drainFramesAux fuel buf = ((splitStream ps buf).2, (splitStream ps buf).1) := by
  intro ps
  induction ps with
  | nil =>
    intro fuel buf t _ hbt hf
    have hbuf : buf = [] := by
      have : (buf ++ t).length = 0 := by rw [hbt]; rfl
      simp only [List.length_append] at this
      exact List.length_eq_zero.1 (by omega)
    subst hbuf
    match fuel, hf with
    | f + 1, _ =>
      simp [drainFramesAux, extractFrame, findSub, isPrefB, splitStream, sepL]
  | cons p rest ih =>
    intro fuel buf t hval hbt hf
    have hp : p.length ≤ MaxContentLength := hval p (List.mem_cons_self p rest)
    rw [framesOf_cons] at hbt
    match fuel, hf with
    | f + 1, hf =>
      by_cases hfull : (makeFrame p).length ≤ buf.length
      · -- the first frame is complete inside `buf`
        have htake : buf.take (makeFrame p).length = makeFrame p := by
          have h1 : (buf ++ t).take (makeFrame p).length = buf.take (makeFrame p).length :=
            take_append_le _ _ _ hfull
          rw [← h1, hbt, take_len_append]
        have hdecomp : buf = makeFrame p ++ buf.drop (makeFrame p).length := by
          conv_lhs => rw [← List.take_append_drop (makeFrame p).length buf]
          rw [htake]
        have hrest : buf.drop (makeFrame p).length ++ t = framesOf rest := by
          have h1 : (buf ++ t).drop (makeFrame p).length =
              buf.drop (makeFrame p).length ++ t := drop_append_le _ _ _ hfull
          rw [← h1, hbt, drop_len_append]
        have hex : extractFrame buf = ⟨some p, buf.drop (makeFrame p).length, []⟩ := by
          conv_lhs => rw [hdecomp]
          exact extract_makeFrame p _ hp
        have hlen : (buf.drop (makeFrame p).length).length < f := by
          rw [List.length_drop]
          have := makeFrame_length_pos p
          omega
        have hih := ih f (buf.drop (makeFrame p).length) t
          (fun q hq => hval q (List.mem_cons_of_mem _ hq)) hrest hlen
        simp only [drainFramesAux, hex, hih, splitStream, if_pos hfull]
      · -- only part of the first frame has arrived
        have hklt : buf.length < (makeFrame p).length := by omega
        have hA : (buf ++ t).take buf.length = buf := by
          rw [take_append_le _ _ _ (le_refl _), List.take_length]
        have hB : (buf ++ t).take buf.length = (makeFrame p).take buf.length := by
          rw [hbt]
          exact take_append_le _ _ _ (by omega)
        have htk : buf = (makeFrame p).take buf.length := hA.symm.trans hB
        have hex : extractFrame buf = ⟨none, buf, []⟩ := by
          conv_lhs => rw [htk]
          rw [extract_take_needMore p buf.length hp hklt, ← htk]
        simp only [drainFramesAux, hex, splitStream, if_neg hfull]

theorem splitStream_spec : ∀ (ps : List (List Char)) (buf : List Char),
    ∃ m, m ≤ ps.length ∧
      (splitStream ps buf).1 = ps.take m ∧
      (framesOf (ps.take m)).length ≤ buf.length ∧
      (splitStream ps buf).2 = buf.drop (framesOf (ps.take m)).length ∧
      (∀ q qs, ps.drop m = q :: qs →
        (splitStream ps buf).2.length < (makeFrame q).length) := by
  intro ps
  induction ps with
  | nil =>
    intro buf
    refine ⟨0, le_refl _, rfl, ?_, ?_, ?_⟩
    · simp [framesOf]
    · simp [splitStream, framesOf]
    · intro q qs h
      simp at h
  | cons p rest ih =>
    intro buf
    by_cases hfull : (makeFrame p).length ≤ buf.length
    · obtain ⟨m, hm, h1, h2, h3, h4⟩ := ih (buf.drop (makeFrame p).length)
      refine ⟨m + 1, by simpa using Nat.succ_le_succ hm, ?_, ?_, ?_, ?_⟩
      · simp only [splitStream, if_pos hfull, List.take_succ_cons, h1]
      · rw [List.take_succ_cons, framesOf_cons, List.length_append]
        have := List.length_drop (makeFrame p).length buf
        omega
      · simp only [splitStream, if_pos hfull, h3, List.take_succ_cons, framesOf_cons,
          List.length_append, List.drop_drop]
      · intro q qs h
        simp only [List.drop_succ_cons] at h
        simpa only [splitStream, if_pos hfull] using h4 q qs h
    · refine ⟨0, Nat.zero_le _, ?_, ?_, ?_, ?_⟩
      · simp [splitStream, hfull]
      · simp [framesOf]
      · simp [splitStream, hfull, framesOf]
      · intro q qs h
        simp only [List.drop_zero] at h
        cases h
        simp only [splitStream, if_neg hfull]
        omega

/-- One iteration of the reader loop on newly received bytes: append the
    chunk to the rolling buffer and run `drainFrames`, accumulating the
    delivered payloads. -/
def feedChunk (st : List Char × List (List Char)) (chunk : List Char) :
    List Char × List (List Char) :=
  let d := drainFrames (st.1 ++ chunk)
  (d.1, st.2 ++ d.2)

/-- Feed a whole sequence of chunks to an initially empty reader buffer. -/
def runChunks (cs : List (List Char)) : List Char × List (List Char) :=
  cs.foldl feedChunk ([], [])

theorem feed_loop : ∀ (rem : List (List Char)) (ps : List (List Char)) (buf : List Char)
    (out : List (List Char)) (j : Nat),
    (∀ q ∈ ps, q.length ≤ MaxContentLength) →
    out = ps.take j → j ≤ ps.length →
    buf ++ rem.flatten = framesOf (ps.drop j) →
    (∀ q qs, ps.drop j = q :: qs → buf.length < (makeFrame q).length) →
    rem.foldl feedChunk (buf, out) = ([], ps) := by
  intro rem
  induction rem with
  | nil =>
    intro ps buf out j hval hout hj happ hbound
    simp only [List.flatten_nil, List.append_nil] at happ
    cases hdj : ps.drop j with
    | nil =>
      rw [hdj] at happ
      have hbuf : buf = [] := by simpa [framesOf] using happ
      have hjlen : ps.length ≤ j := by
        have := List.drop_eq_nil_iff.1 hdj
        omega
      have : out = ps := by rw [hout, List.take_of_length_le hjlen]
      simp [hbuf, this]
    | cons q qs =>
      rw [hdj, framesOf_cons] at happ
      have h1 : buf.length < (makeFrame q).length := hbound q qs hdj
      have h2 : buf.length = (makeFrame q).length + (framesOf qs).length := by
        rw [happ, List.length_append]
      omega
  | cons c rem' ih =>
    intro ps buf out j hval hout hj happ hbound
    have hBt : (buf ++ c) ++ rem'.flatten = framesOf (ps.drop j) := by
      rw [List.append_assoc, ← List.flatten_cons]
      exact happ
    have hval' : ∀ q ∈ ps.drop j, q.length ≤ MaxContentLength :=
      fun q hq => hval q (List.mem_of_mem_drop hq)
    have hdrain : drainFrames (buf ++ c) =
        ((splitStream (ps.drop j) (buf ++ c)).2, (splitStream (ps.drop j) (buf ++ c)).1) :=
      drainAux_stream (ps.drop j) ((buf ++ c).length + 1) (buf ++ c) rem'.flatten
        hval' hBt (Nat.lt_succ_self _)
    obtain ⟨m, hm, h1, h2, h3, h4⟩ := splitStream_spec (ps.drop j) (buf ++ c)
    have hdropdrop : (ps.drop j).drop m = ps.drop (j + m) := by
      rw [List.drop_drop, Nat.add_comm]
    have hout' : out ++ (ps.drop j).take m = ps.take (j + m) := by
      rw [hout, List.take_add]
    have hj' : j + m ≤ ps.length := by
      have := List.length_drop j ps
      omega
    have hsplitF : framesOf (ps.drop j) =
        framesOf ((ps.drop j).take m) ++ framesOf (ps.drop (j + m)) := by
      rw [← framesOf_append, ← hdropdrop, List.take_append_drop]
    have hB2 : (buf ++ c).drop (framesOf ((ps.drop j).take m)).length ++ rem'.flatten =
        framesOf (ps.drop (j + m)) := by
      rw [← drop_append_le _ _ _ h2, hBt, hsplitF, drop_len_append]
    have hbound' : ∀ q qs, ps.drop (j + m) = q :: qs →
        ((buf ++ c).drop (framesOf ((ps.drop j).take m)).length).length <
          (makeFrame q).length := by
      intro q qs h
      have := h4 q qs (by rw [hdropdrop]; exact h)
      rwa [h3] at this
    simp only [List.foldl_cons, feedChunk, hdrain]
    rw [h1, h3, hout']
    exact ih ps _ _ (j + m) hval rfl hj' hB2 hbound'

/-! ## Claims C1, C2, C7, C8: the frame codec -/

/-- Claim C1: for every byte stream that is a concatenation of valid
    frames, split into arbitrary chunks and appended incrementally to the
    reader buffer, repeated application of the extractor (until it reports
    NeedMore) yields exactly the sequence of originally encoded payloads,
    in order (and the buffer finishes empty). -/
theorem c1_chunked_reassembly (ps cs : List (List Char))
    (hval : ∀ p ∈ ps, p.length ≤ MaxContentLength)
    (hcs : cs.flatten = framesOf ps) :
    runChunks cs = ([], ps) := by
  apply feed_loop cs ps [] [] 0 hval rfl (Nat.zero_le _)
  · simpa using hcs
  · intro q qs h
    simpa using makeFrame_length_pos q

theorem c1_chunked_reassembly_witness :
    ((∀ p ∈ [("hello".toList : List Char)], p.length ≤ MaxContentLength) ∧
      [("Content-Length: 5\r\n\r\nhel".toList : List Char), "lo".toList].flatten =
        framesOf ["hello".toList]) ∧
    runChunks ["Content-Length: 5\r\n\r\nhel".toList, "lo".toList] =
      ([], ["hello".toList]) :=
  ⟨⟨by decide, by decide⟩,
   c1_chunked_reassembly ["hello".toList]
     ["Content-Length: 5\r\n\r\nhel".toList, "lo".toList] (by decide) (by decide)⟩

/-- Claim C2: for every payload `P` with `|P| ≤ MAX_CONTENT_LENGTH`
    (including the empty payload and exactly 1 MiB), extracting from
    `Encode(P) ++ buffer` returns `Frame(P)`, leaves the buffer equal to
    `buffer`, and reports no error. -/
theorem c2_encode_extract_identity (P buffer : List Char)
    (h : P.length ≤ MaxContentLength) :
    extractFrame (makeFrame P ++ buffer) = ⟨some P, buffer, []⟩ :=
  extract_makeFrame P buffer h

theorem c2_encode_extract_identity_witness :
    (("".toList : List Char).length ≤ MaxContentLength ∧
      extractFrame (makeFrame "".toList ++ "XY".toList) = ⟨some "".toList, "XY".toList, []⟩) ∧
    (("hello".toList : List Char).length ≤ MaxContentLength ∧
      extractFrame (makeFrame "hello".toList ++ "Content-Length: 2\r\n\r\nok".toList) =
        ⟨some "hello".toList, "Content-Length: 2\r\n\r\nok".toList, []⟩) :=
  ⟨⟨by decide, c2_encode_extract_identity _ _ (by decide)⟩,
   ⟨by decide, c2_encode_extract_identity _ _ (by decide)⟩⟩

/-- Claim C7 counterexample: the extractor on the receive path does NOT
    accept LF-only line endings.  The CRLF frame for payload "hello" is
    extracted, but the same frame with LF-only endings is left in the
    buffer unconsumed (NeedMore), payload not delivered. -/
theorem c7_lf_only_counterexample :
    extractFrame "Content-Length: 5\r\n\r\nhello".toList =
      ⟨some "hello".toList, [], []⟩ ∧
    extractFrame "Content-Length: 5\n\nhello".toList =
      ⟨none, "Content-Length: 5\n\nhello".toList, []⟩ := by
  constructor <;> decide

/-- Claim C7 (amended): a buffer containing no carriage return — in
    particular a frame whose header region uses LF-only line endings —
    is never accepted by `extractFrame` (the receive-path extractor):
    it contains no `\r\n\r\n` separator, so extraction reports NeedMore
    and leaves the buffer unchanged.  (The `getline`-based `readFrame`
    helper in the source would accept LF-only endings, but the receive
    path `drainFrames` uses only `extractFrame`.) -/
theorem c7_lf_only_needmore (buf : List Char) (h : '\r' ∉ buf) :
    extractFrame buf = ⟨none, buf, []⟩ := by
  have hfind : findSub sepL buf = none := by
    rw [← List.append_nil buf]
    exact findSub_none_append h (by simp [sepL])
  simp [extractFrame, hfind]

theorem c7_lf_only_needmore_witness :
    ('\r' ∉ "Content-Length: 5\n\nhello".toList) ∧
    extractFrame "Content-Length: 5\n\nhello".toList =
      ⟨none, "Content-Length: 5\n\nhello".toList, []⟩ :=
  ⟨by decide, c7_lf_only_needmore _ (by decide)⟩

/-- Claim C8 counterexample: a header region with a missing
    `Content-Length` is a framing error, yet the error handler is NOT
    invoked (`errs = []`); the header region is still dropped and the
    remaining stream kept. -/
theorem c8_missing_length_counterexample :
    (extractFrame "X: 1\r\n\r\nrest".toList).errs = [] ∧
    (extractFrame "X: 1\r\n\r\nrest".toList).buf = "rest".toList := by
  constructor <;> decide

/-- A `Content-Length` line whose value does not parse (`stoull` throws,
    the `catch` at the call site only logs): the whole line is consumed
    with `haveLength` left untouched. -/
theorem processLine_unparseable (v : List Char) (acc : Option Nat)
    (hbad : stoullModel (leftTrim (' ' :: v)) = none) :
    processLine (clPrefixL ++ v) acc = .ok acc := by
  have hdecomp : clPrefixL ++ v = "Content-Length".toList ++ (':' :: (' ' :: v)) := by
    rw [show clPrefixL = "Content-Length".toList ++ [':', ' '] from by decide,
        List.append_assoc]
    rfl
  have hcolon : findSub [':'] (clPrefixL ++ v) =
      some ("Content-Length".toList).length := by
    rw [hdecomp]
    exact findSub_append_of_head_notin (by simp [isPrefB]) (by decide)
  have htake : (clPrefixL ++ v).take ("Content-Length".toList).length =
      "Content-Length".toList := by
    rw [hdecomp]
    exact take_len_append _ _
  have hdrop : (clPrefixL ++ v).drop (("Content-Length".toList).length + 1) =
      ' ' :: v := by
    rw [hdecomp]
    exact drop_len_append_cons _ _ _
  rw [processLine, hcolon]
  simp only [htake, hdrop]
  rw [if_pos (show ("Content-Length".toList).map toLowerC = "content-length".toList
        from by decide), hbad]

/-- A header region `Content-Length: <v>` whose value is unparseable
    (the `catch` path): the header region is dropped and extraction
    continues, but the error handler is NOT invoked (only a log). -/
theorem extract_invalidCL (v rest : List Char) (hr : '\r' ∉ v)
    (hbad : stoullModel (leftTrim (' ' :: v)) = none) :
    extractFrame ((clPrefixL ++ v) ++ (sepL ++ rest)) = ⟨none, rest, []⟩ := by
  have hrh : '\r' ∉ clPrefixL ++ v := by
    intro hm
    rcases List.mem_append.1 hm with h1 | h1
    · exact absurd h1 (by decide)
    · exact hr h1
  have hfind : findSub sepL ((clPrefixL ++ v) ++ (sepL ++ rest)) =
      some (clPrefixL ++ v).length := findSub_sep_at_header hrh
  have hpos : 0 < (clPrefixL ++ v).length := by
    simp only [List.length_append, show clPrefixL.length = 16 from by decide]
    omega
  have hfc : findSubFrom crlfL ((clPrefixL ++ v) ++ (sepL ++ rest)) 0 =
      some (clPrefixL ++ v).length := by
    rw [findSubFrom, List.drop_zero, findSub_crlf_at_header hrh]
    simp
  have hline : (((clPrefixL ++ v) ++ (sepL ++ rest)).drop 0).take
      ((clPrefixL ++ v).length - 0) = clPrefixL ++ v := by
    rw [List.drop_zero, Nat.sub_zero]
    exact take_len_append _ _
  have hparse : parseHeadersAux ((clPrefixL ++ v) ++ (sepL ++ rest))
      (clPrefixL ++ v).length ((clPrefixL ++ v).length + 1) 0 none = .done none := by
    rw [parseHeadersAux, if_pos hpos, hfc]
    simp only [lt_self_iff_false, if_false, hline, processLine_unparseable v none hbad]
    exact parseHeadersAux_stop (by omega)
  simp only [extractFrame, hfind, hparse]
  rw [show (clPrefixL ++ v) ++ (sepL ++ rest) = ((clPrefixL ++ v) ++ sepL) ++ rest from
        by simp,
      show (clPrefixL ++ v).length + 4 = ((clPrefixL ++ v) ++ sepL).length from by
        simp only [List.length_append, show sepL.length = 4 from rfl],
      drop_len_append]

/-- Claim C8 (amended): on a framing error the malformed header region is
    dropped (buffer advanced past the separator) and extraction continues
    on the remaining stream, with no effect on the connection; but the
    error handler is invoked only for a `Content-Length` exceeding
    `MAX_CONTENT_LENGTH` ("body too large") — a missing `Content-Length`
    (no such header line at all) and an invalid, unparseable
    `Content-Length` value (the `stoull` catch path) are only logged, the
    error handler is not invoked. -/
theorem c8_framing_errors_amended :
    (∀ (n : Nat) (rest : List Char), MaxContentLength < n → n ≤ USizeMax →
        extractFrame (headerFor n ++ (sepL ++ rest)) =
          ⟨none, rest, ["StdioTransport: body too large"]⟩) ∧
    (∀ (hdr rest : List Char), '\r' ∉ hdr → ':' ∉ hdr →
        extractFrame (hdr ++ (sepL ++ rest)) = ⟨none, rest, []⟩) ∧
    (∀ (v rest : List Char), '\r' ∉ v →
        stoullModel (leftTrim (' ' :: v)) = none →
        extractFrame ((clPrefixL ++ v) ++ (sepL ++ rest)) = ⟨none, rest, []⟩) :=
  ⟨extract_tooLarge, extract_missingCL, extract_invalidCL⟩

theorem c8_framing_errors_amended_witness :
    (MaxContentLength < 1048577 ∧ 1048577 ≤ USizeMax ∧
      extractFrame (headerFor 1048577 ++ (sepL ++ "rest".toList)) =
        ⟨none, "rest".toList, ["StdioTransport: body too large"]⟩) ∧
    ('\r' ∉ "Nope".toList ∧ ':' ∉ "Nope".toList ∧
      extractFrame ("Nope".toList ++ (sepL ++ "more".toList)) =
        ⟨none, "more".toList, []⟩) ∧
    ('\r' ∉ "abc".toList ∧ stoullModel (leftTrim (' ' :: "abc".toList)) = none ∧
      extractFrame ((clPrefixL ++ "abc".toList) ++ (sepL ++ "tail".toList)) =
        ⟨none, "tail".toList, []⟩) :=
  ⟨⟨by decide, by decide,
    c8_framing_errors_amended.1 1048577 "rest".toList (by decide) (by decide)⟩,
   ⟨by decide, by decide,
    c8_framing_errors_amended.2.1 "Nope".toList "more".toList (by decide) (by decide)⟩,
   ⟨by decide, by decide,
    c8_framing_errors_amended.2.2 "abc".toList "tail".toList (by decide) (by decide)⟩⟩

/-! ## The bounded write queue (`enqueueFrame` / `dequeueNextFrame` /
    `accountWritten`) -/

/-- State protected by `writeMutex`, plus the `connected` atomic.
    `inFlight` is a ghost field recording frames that have been dequeued
    by the writer but whose size has not yet been passed to
    `accountWritten`; the C++ keeps such a frame in the writer thread's
    local `frame` variable. -/
structure WQState where
  connected : Bool
  writeQueue : List (List Char)
  queuedBytes : Nat
  writeQueueMaxBytes : Nat
  inFlight : List (List Char)
  deriving DecidableEq, Repr

/-- Observable effects of one `StdioTransport::Impl::enqueueFrame` call:
    the returned Bool, the successor state, the messages passed to the
    error handler, whether the wakeup primitive was signalled
    (SetEvent / eventfd / self-pipe write), and whether `cvWrite` was
    notified. -/
structure EnqueueEffects where
  ok : Bool
  st : WQState
  errMsgs : List String
  wakeSignaled : Bool
  cvWriteNotified : Bool
  deriving DecidableEq, Repr

/-- `StdioTransport::Impl::enqueueFrame`: frame the payload; under the
    lock, on overflow report "write queue overflow", clear `connected`,
    signal the wakeup primitive, notify `cvWrite` (notify_all) and return
    false; otherwise grow `queuedBytes`, append the frame, notify
    `cvWrite` (notify_one) and return true. -/
def enqueueFrame (payload : List Char) (st : WQState) : EnqueueEffects :=
  let frame := makeFrame payload
  if st.writeQueueMaxBytes < st.queuedBytes + frame.length then
    { ok := false
      st := { st with connected := false }
      errMsgs := ["StdioTransport: write queue overflow"]
      wakeSignaled := true
      cvWriteNotified := true }
  else
    { ok := true
      st := { st with
        queuedBytes := st.queuedBytes + frame.length
        writeQueue := st.writeQueue ++ [frame] }
      errMsgs := []
      wakeSignaled := false
      cvWriteNotified := true }

/-- Result of `dequeueNextFrame`: `exit` models returning false (writer
    should exit), the other two model returning true with the popped
    frame resp. with the cleared frame. -/
inductive DeqResult where
  | exit
  | frame (f : List Char)
  | emptyFrame
  deriving DecidableEq, Repr

/-- `StdioTransport::Impl::dequeueNextFrame` after its condition-variable
    wait has passed (`!connected || !writeQueue.empty()`). -/
def dequeueNextFrame (st : WQState) : DeqResult × WQState :=
  if st.connected = false ∧ st.writeQueue = [] then (.exit, st)
  else
    match st.writeQueue with
    | f :: rest => (.frame f, { st with writeQueue := rest })
    | [] => (.emptyFrame, st)

/-- `StdioTransport::Impl::accountWritten`: subtract the written frame's
    size from `queuedBytes`, saturating at zero. -/
def accountWritten (frameSize : Nat) (st : WQState) : WQState :=
  if frameSize ≤ st.queuedBytes then { st with queuedBytes := st.queuedBytes - frameSize }
  else { st with queuedBytes := 0 }

/-- Interleaved operations on the write queue: a producer enqueueing a
    payload, the writer dequeueing the next frame, and the writer
    accounting the frame it finished writing (the C++ writer calls
    `accountWritten(frame.size())` for the frame it last dequeued). -/
inductive WOp where
  | enq (payload : List Char)
  | deq
  | account

def wstep (st : WQState) : WOp → WQState
  | .enq p => (enqueueFrame p st).st
  | .deq =>
    let r := dequeueNextFrame st
    match r.1 with
    | .frame f => { r.2 with inFlight := r.2.inFlight ++ [f] }
    | _ => r.2
  | .account =>
    match st.inFlight with
    | f :: rest => { accountWritten f.length st with inFlight := rest }
    | [] => st

/-- Initial write-queue state: connected, empty queue, zero bytes, the
    2 MiB default cap. -/
def winit : WQState :=
  { connected := true, writeQueue := [], queuedBytes := 0,
    writeQueueMaxBytes := 2 * 1024 * 1024, inFlight := [] }

def wrun (ops : List WOp) : WQState := ops.foldl wstep winit

def sumLen (l : List (List Char)) : Nat := (l.map List.length).sum

theorem sumLen_append (a b : List (List Char)) :
    sumLen (a ++ b) = sumLen a + sumLen b := by
  simp [sumLen]

/-- The real invariant of the write-queue accounting. -/
def WQInv (st : WQState) : Prop :=
  st.queuedBytes = sumLen st.writeQueue + sumLen st.inFlight ∧
  st.queuedBytes ≤ st.writeQueueMaxBytes

theorem wstep_inv (st : WQState) (op : WOp) (h : WQInv st) : WQInv (wstep st op) := by
  obtain ⟨hsum, hle⟩ := h
  cases op with
  | enq p =>
    simp only [wstep, enqueueFrame]
    by_cases hovf : st.writeQueueMaxBytes < st.queuedBytes + (makeFrame p).length
    · simp only [if_pos hovf]
      exact ⟨hsum, hle⟩
    · simp only [if_neg hovf]
      constructor
      · simp only [sumLen_append]
        simp [sumLen, hsum]
        omega
      · simp only []
        omega
  | deq =>
    simp only [wstep, dequeueNextFrame]
    by_cases hexit : st.connected = false ∧ st.writeQueue = []
    · simp only [if_pos hexit]
      exact ⟨hsum, hle⟩
    · simp only [if_neg hexit]
      cases hq : st.writeQueue with
      | nil => exact ⟨hsum, hle⟩
      | cons f rest =>
        constructor
        · simp only [sumLen_append]
          rw [hq] at hsum
          simp [sumLen] at hsum ⊢
          omega
        · simpa using hle
  | account =>
    cases hf : st.inFlight with
    | nil => simp only [wstep, hf]; exact ⟨hsum, hle⟩
    | cons f rest =>
      rw [hf] at hsum
      have hge : f.length ≤ st.queuedBytes := by
        simp [sumLen] at hsum
        omega
      simp only [wstep, hf, accountWritten, if_pos hge]
      constructor
      · simp [sumLen] at hsum ⊢
        omega
      · simp only []
        omega

theorem wrun_inv (ops : List WOp) : WQInv (wrun ops) := by
  rw [wrun]
  have h0 : WQInv winit := by constructor <;> simp [winit, sumLen]
  generalize winit = st at h0 ⊢
  induction ops generalizing st with
  | nil => exact h0
  | cons op rest ih => exact ih _ (wstep_inv st op h0)

/-! ## Claims C4 and C5: backpressure and queue accounting -/

/-- Claim C4: an enqueue that would push `queuedBytes` past the cap
    reports "write queue overflow" to the error handler, clears
    `connected`, signals the wakeup primitive, notifies the writer's
    condition variable and returns false (leaving the queue untouched);
    an enqueue within the cap appends the frame, adds its size to
    `queuedBytes`, notifies the writer and returns true. -/
theorem c4_enqueue_backpressure (payload : List Char) (st : WQState) :
    (st.writeQueueMaxBytes < st.queuedBytes + (makeFrame payload).length →
      (enqueueFrame payload st).ok = false ∧
      (enqueueFrame payload st).errMsgs = ["StdioTransport: write queue overflow"] ∧
      (enqueueFrame payload st).st.connected = false ∧
      (enqueueFrame payload st).wakeSignaled = true ∧
      (enqueueFrame payload st).cvWriteNotified = true ∧
      (enqueueFrame payload st).st.writeQueue = st.writeQueue ∧
      (enqueueFrame payload st).st.queuedBytes = st.queuedBytes) ∧
    (st.queuedBytes + (makeFrame payload).length ≤ st.writeQueueMaxBytes →
      (enqueueFrame payload st).ok = true ∧
      (enqueueFrame payload st).st.writeQueue = st.writeQueue ++ [makeFrame payload] ∧
      (enqueueFrame payload st).st.queuedBytes =
        st.queuedBytes + (makeFrame payload).length ∧
      (enqueueFrame payload st).cvWriteNotified = true ∧
      (enqueueFrame payload st).errMsgs = [] ∧
      (enqueueFrame payload st).st.connected = st.connected) := by
  constructor
  · intro h
    simp [enqueueFrame, h]
  · intro h
    simp [enqueueFrame, Nat.not_lt.2 h]

/-- A write-queue state whose cap is configured down to a single byte
    (`SetWriteQueueMaxBytes(1)`), used to exercise the overflow branch. -/
def wtiny : WQState :=
  { connected := true, writeQueue := [], queuedBytes := 0,
    writeQueueMaxBytes := 1, inFlight := [] }

theorem c4_enqueue_backpressure_witness :
    (wtiny.writeQueueMaxBytes < wtiny.queuedBytes + (makeFrame []).length ∧
      (enqueueFrame [] wtiny).ok = false ∧
      (enqueueFrame [] wtiny).st.connected = false) ∧
    (winit.queuedBytes + (makeFrame []).length ≤ winit.writeQueueMaxBytes ∧
      (enqueueFrame [] winit).ok = true) :=
  ⟨⟨by decide, ((c4_enqueue_backpressure [] wtiny).1 (by decide)).1,
    ((c4_enqueue_backpressure [] wtiny).1 (by decide)).2.2.1⟩,
   ⟨by decide, ((c4_enqueue_backpressure [] winit).2 (by decide)).1⟩⟩

/-- Claim C5 counterexample: after an enqueue followed by the writer's
    dequeue — before the writer has called `accountWritten` — the queue is
    empty (sum of queued frame lengths 0) while `queuedBytes` is still 21
    (the dequeued frame's size).  So "queuedBytes equals the sum of the
    lengths of the frames currently in the write queue, at every instant,
    across every interleaving" fails. -/
theorem c5_queuedbytes_counterexample :
    (wrun [.enq [], .deq]).queuedBytes = 21 ∧
    sumLen (wrun [.enq [], .deq]).writeQueue = 0 := by
  constructor <;> decide

/-- Claim C5 (amended): across every interleaving of enqueue, dequeue and
    write-accounting from the initial state, `queuedBytes` equals the sum
    of the lengths of the frames in the write queue plus the lengths of
    the frames dequeued by the writer but not yet accounted (the C++
    subtracts only after the frame is fully written or abandoned); it is
    only this larger sum that `queuedBytes` tracks exactly.  The bound
    `queuedBytes ≤ write_queue_max_bytes` does hold at every instant. -/
theorem c5_queuedbytes_invariant (ops : List WOp) :
    (wrun ops).queuedBytes =
      sumLen (wrun ops).writeQueue + sumLen (wrun ops).inFlight ∧
    (wrun ops).queuedBytes ≤ (wrun ops).writeQueueMaxBytes :=
  wrun_inv ops

/-! ## Request correlation and deadlines
    (`pendingRequests` / `requestDeadlines` under `requestMutex`)

    The two `std::unordered_map`s are modelled as association lists with
    `operator[]`-style overwrite on insert.  A completion slot
    (`std::promise`) is identified by the `Nat` issued when its
    `SendRequest` ran; `fulfilled` is a ghost log of every `set_value`
    call, as `(slot, reason)`, in order. -/

def lookupA : List (String × Nat) → String → Option Nat
  | [], _ => none
  | (k, v) :: t, key => if k = key then some v else lookupA t key

/-- `map[key] = value` (overwrites an existing entry, else appends). -/
def insertA : List (String × Nat) → String → Nat → List (String × Nat)
  | [], k, v => [(k, v)]
  | (k0, v0) :: t, k, v =>
    if k0 = k then (k, v) :: t else (k0, v0) :: insertA t k v

/-- `map.erase(key)` (removes the entry with this key, if any). -/
def eraseA : List (String × Nat) → String → List (String × Nat)
  | [], _ => []
  | (k0, v0) :: t, k => if k0 = k then t else (k0, v0) :: eraseA t k

def keysA (m : List (String × Nat)) : List String := m.map Prod.fst

def sndsA (m : List (String × Nat)) : List Nat := m.map Prod.snd

structure CorrState where
  connected : Bool
  pending : List (String × Nat)
  deadlines : List (String × Nat)
  fulfilled : List (Nat × String)
  nextSlot : Nat
  deriving DecidableEq, Repr

/-- Fulfil the pending slot of `id` with `reason` the way every
    completion site in the C++ does: look the id up in `pendingRequests`;
    if found, `set_value` and erase it from `pendingRequests`; erase the
    id from `requestDeadlines` unconditionally (`handleResponse` and the
    timeout sweep both do). -/
def fulfillOne (reason : String) (s : CorrState) (id : String) : CorrState :=
  match lookupA s.pending id with
  | some slot =>
    { s with
      pending := eraseA s.pending id
      deadlines := eraseA s.deadlines id
      fulfilled := s.fulfilled ++ [(slot, reason)] }
  | none => { s with deadlines := eraseA s.deadlines id }

/-- The `requestMutex`-guarded critical sections that mutate the
    correlation state; a run is an arbitrary interleaving of them.
    `insert id dl` is the guarded section of `SendRequest`
    (`pendingRequests[id] = promise; requestDeadlines[id] = deadline`) for
    a call whose earlier `connected.load()` check returned true.  That
    check happens OUTSIDE `requestMutex` and before this step, and the
    insertion does not re-check `connected` — so a `Close` may complete
    entirely between the two, and the insertion still happens (this race
    is a schedulable run here: `.close` followed by `.insert`).  A
    `SendRequest` whose check read false contributes no operation at all
    (it returns early; claim C9).  `respond` is `handleResponse` for an
    incoming response id, `expire` one sweep of the timeout thread at
    time `now`, `close` the `Close` cleanup. -/
inductive COp where
  | insert (id : String) (deadline : Nat)
  | respond (id : String)
  | expire (now : Nat)
  | close
  deriving DecidableEq, Repr

def cstep (st : CorrState) : COp → CorrState
  | .insert id dl =>
    { st with
      pending := insertA st.pending id st.nextSlot
      deadlines := insertA st.deadlines id dl
      nextSlot := st.nextSlot + 1 }
  | .respond id => fulfillOne "response" st id
  | .expire now =>
    ((st.deadlines.filter (fun kv => kv.2 ≤ now)).map Prod.fst).foldl
      (fulfillOne "Request timeout") st
  | .close =>
    { connected := false
      pending := []
      deadlines := []
      fulfilled := st.fulfilled ++ st.pending.map (fun kv => (kv.2, "Transport closed"))
      nextSlot := st.nextSlot }

def cinit : CorrState :=
  { connected := true, pending := [], deadlines := [], fulfilled := [], nextSlot := 0 }

def crun (ops : List COp) : CorrState := ops.foldl cstep cinit

/-- Ids of the `SendRequest` insertions of a run, in order. -/
def insertIds (ops : List COp) : List String :=
  ops.filterMap (fun op => match op with | .insert id _ => some id | _ => none)

theorem lookupA_insertA : ∀ (m : List (String × Nat)) (k k' : String) (v : Nat),
    lookupA (insertA m k v) k' = if k = k' then some v else lookupA m k' := by
  intro m k k' v
  induction m with
  | nil => simp [insertA, lookupA]
  | cons kv t ih =>
    obtain ⟨k0, v0⟩ := kv
    simp only [insertA]
    by_cases h0 : k0 = k
    · subst h0
      simp only [if_pos rfl, lookupA]
      by_cases hk : k0 = k'
      · subst hk; simp
      · simp [hk]
    · simp only [if_neg h0, lookupA]
      by_cases hk0 : k0 = k'
      · subst hk0
        simp [show ¬ (k = k0) from fun he => h0 he.symm]
      · simp [hk0, ih]

theorem lookupA_eq_none_of_not_mem : ∀ {m : List (String × Nat)} {k : String},
    k ∉ keysA m → lookupA m k = none := by
  intro m
  induction m with
  | nil => intro k _; rfl
  | cons kv t ih =>
    intro k h
    obtain ⟨k0, v0⟩ := kv
    simp only [keysA, List.map_cons, List.mem_cons] at h
    push_neg at h
    rw [lookupA, if_neg (Ne.symm h.1)]
    exact ih h.2

theorem lookupA_isSome_iff {m : List (String × Nat)} {k : String} :
    (lookupA m k).isSome = true ↔ k ∈ keysA m := by
  induction m with
  | nil => simp [lookupA, keysA]
  | cons kv t ih =>
    obtain ⟨k0, v0⟩ := kv
    by_cases h0 : k0 = k
    · subst h0
      simp [lookupA, keysA]
    · rw [lookupA, if_neg h0]
      simp only [keysA, List.map_cons, List.mem_cons]
      rw [ih]
      constructor
      · exact fun h => Or.inr h
      · rintro (h | h)
        · exact absurd h.symm h0
        · exact h

theorem eraseA_sublist : ∀ (m : List (String × Nat)) (k : String),
    List.Sublist (eraseA m k) m := by
  intro m k
  induction m with
  | nil => simp [eraseA]
  | cons kv t ih =>
    obtain ⟨k0, v0⟩ := kv
    rw [eraseA]
    by_cases h0 : k0 = k
    · rw [if_pos h0]
      exact List.sublist_cons_self _ _
    · rw [if_neg h0]
      exact List.Sublist.cons₂ _ ih

theorem lookupA_eraseA : ∀ (m : List (String × Nat)) (k k' : String),
    (keysA m).Nodup →
    lookupA (eraseA m k) k' = if k = k' then none else lookupA m k' := by
  intro m k k'
  induction m with
  | nil => intro _; simp [eraseA, lookupA]
  | cons kv t ih =>
    intro hnd
    obtain ⟨k0, v0⟩ := kv
    simp only [keysA, List.map_cons, List.nodup_cons] at hnd
    rw [eraseA]
    by_cases h0 : k0 = k
    · subst h0
      rw [if_pos rfl]
      by_cases hk : k0 = k'
      · subst hk
        rw [if_pos rfl]
        exact lookupA_eq_none_of_not_mem hnd.1
      · rw [if_neg hk, lookupA, if_neg hk]
    · rw [if_neg h0]
      by_cases hk0 : k0 = k'
      · subst hk0
        rw [lookupA, if_pos rfl, if_neg (fun (he : k = k0) => h0 he.symm), lookupA,
            if_pos rfl]
      · rw [lookupA, if_neg hk0, ih hnd.2, lookupA, if_neg hk0]

theorem mem_keysA_insertA : ∀ (m : List (String × Nat)) (k k' : String) (v : Nat),
    k' ∈ keysA (insertA m k v) → k' = k ∨ k' ∈ keysA m := by
  intro m k k' v
  induction m with
  | nil => simp [insertA, keysA]
  | cons kv t ih =>
    obtain ⟨k0, v0⟩ := kv
    rw [insertA]
    by_cases h0 : k0 = k
    · rw [if_pos h0]
      simp only [keysA, List.map_cons, List.mem_cons]
      rintro (h | h)
      · exact Or.inl h
      · exact Or.inr (Or.inr h)
    · rw [if_neg h0]
      simp only [keysA, List.map_cons, List.mem_cons]
      rintro (h | h)
      · exact Or.inr (Or.inl h)
      · rcases ih h with h1 | h1
        · exact Or.inl h1
        · exact Or.inr (Or.inr h1)

theorem keysA_insertA_nodup : ∀ (m : List (String × Nat)) (k : String) (v : Nat),
    (keysA m).Nodup → (keysA (insertA m k v)).Nodup := by
  intro m k v
  induction m with
  | nil => intro _; simp [insertA, keysA]
  | cons kv t ih =>
    intro hnd
    obtain ⟨k0, v0⟩ := kv
    simp only [keysA, List.map_cons, List.nodup_cons] at hnd
    rw [insertA]
    by_cases h0 : k0 = k
    · subst h0
      rw [if_pos rfl]
      simp only [keysA, List.map_cons, List.nodup_cons]
      exact hnd
    · rw [if_neg h0]
      simp only [keysA, List.map_cons, List.nodup_cons]
      refine ⟨fun hm => ?_, ih hnd.2⟩
      rcases mem_keysA_insertA t k k0 v hm with h1 | h1
      · exact h0 h1
      · exact hnd.1 h1

theorem insertA_not_mem (m : List (String × Nat)) (k : String) (v : Nat)
    (h : k ∉ keysA m) : insertA m k v = m ++ [(k, v)] := by
  induction m with
  | nil => rfl
  | cons kv t ih =>
    obtain ⟨k0, v0⟩ := kv
    simp only [keysA, List.map_cons, List.mem_cons] at h
    push_neg at h
    rw [insertA, if_neg (Ne.symm h.1), List.cons_append, ih h.2]

theorem mem_sndsA_insertA : ∀ (m : List (String × Nat)) (k : String) (v x : Nat),
    x ∈ sndsA (insertA m k v) → x = v ∨ x ∈ sndsA m := by
  intro m k v x
  induction m with
  | nil => simp [insertA, sndsA]
  | cons kv t ih =>
    obtain ⟨k0, v0⟩ := kv
    rw [insertA]
    by_cases h0 : k0 = k
    · rw [if_pos h0]
      simp only [sndsA, List.map_cons, List.mem_cons]
      rintro (h | h)
      · exact Or.inl h
      · exact Or.inr (Or.inr h)
    · rw [if_neg h0]
      simp only [sndsA, List.map_cons, List.mem_cons]
      rintro (h | h)
      · exact Or.inr (Or.inl h)
      · rcases ih h with h1 | h1
        · exact Or.inl h1
        · exact Or.inr (Or.inr h1)

theorem nodup_sndsA_insertA : ∀ (m : List (String × Nat)) (k : String) (v : Nat),
    (sndsA m).Nodup → v ∉ sndsA m → (sndsA (insertA m k v)).Nodup := by
  intro m k v
  induction m with
  | nil => intro _ _; simp [insertA, sndsA]
  | cons kv t ih =>
    intro hnd hv
    obtain ⟨k0, v0⟩ := kv
    simp only [sndsA, List.map_cons, List.nodup_cons] at hnd
    simp only [sndsA, List.map_cons, List.mem_cons] at hv
    push_neg at hv
    rw [insertA]
    by_cases h0 : k0 = k
    · rw [if_pos h0]
      simp only [sndsA, List.map_cons, List.nodup_cons]
      exact ⟨hv.2, hnd.2⟩
    · rw [if_neg h0]
      simp only [sndsA, List.map_cons, List.nodup_cons]
      refine ⟨fun hm => ?_, ih hnd.2 hv.2⟩
      rcases mem_sndsA_insertA t k v v0 hm with h1 | h1
      · exact hv.1 h1.symm
      · exact hnd.1 h1

theorem eraseA_decomp : ∀ (m : List (String × Nat)) (k : String) (v : Nat),
    (keysA m).Nodup → lookupA m k = some v →
    ∃ l r, m = l ++ (k, v) :: r ∧ eraseA m k = l ++ r := by
  intro m k v
  induction m with
  | nil => intro _ h; simp [lookupA] at h
  | cons kv t ih =>
    intro hnd hl
    obtain ⟨k0, v0⟩ := kv
    simp only [keysA, List.map_cons, List.nodup_cons] at hnd
    by_cases h0 : k0 = k
    · subst h0
      rw [lookupA, if_pos rfl] at hl
      have hv0 : v0 = v := Option.some.inj hl
      subst hv0
      exact ⟨[], t, by simp, by rw [eraseA, if_pos rfl]; simp⟩
    · rw [lookupA, if_neg h0] at hl
      obtain ⟨l, r, hm, he⟩ := ih hnd.2 hl
      refine ⟨(k0, v0) :: l, r, by simp [hm], ?_⟩
      rw [eraseA, if_neg h0, List.cons_append, he]

theorem lookupA_mem_snds : ∀ {m : List (String × Nat)} {k : String} {v : Nat},
    lookupA m k = some v → v ∈ sndsA m := by
  intro m
  induction m with
  | nil => intro k v h; simp [lookupA] at h
  | cons kv t ih =>
    intro k v h
    obtain ⟨k0, v0⟩ := kv
    rw [lookupA] at h
    by_cases h0 : k0 = k
    · rw [if_pos h0] at h
      simp only [sndsA, List.map_cons, List.mem_cons]
      exact Or.inl (Option.some.inj h).symm
    · rw [if_neg h0] at h
      simp only [sndsA, List.map_cons, List.mem_cons]
      exact Or.inr (ih h)

/-- Invariants of the correlation state, maintained by every operation:
    both maps have unique keys and the same key set; pending slots are
    distinct, allocated below `nextSlot`, and not yet fulfilled; the
    fulfilment log never names a slot twice. -/
structure CInv (st : CorrState) : Prop where
  nkp : (keysA st.pending).Nodup
  nkd : (keysA st.deadlines).Nodup
  same : ∀ id, (lookupA st.pending id).isSome = (lookupA st.deadlines id).isSome
  nsp : (sndsA st.pending).Nodup
  bp : ∀ s ∈ sndsA st.pending, s < st.nextSlot
  nf : (st.fulfilled.map Prod.fst).Nodup
  bf : ∀ s ∈ st.fulfilled.map Prod.fst, s < st.nextSlot
  disj : ∀ s ∈ sndsA st.pending, s ∉ st.fulfilled.map Prod.fst

/-- Every allocated slot is either still pending or already fulfilled. -/
def Comp (st : CorrState) : Prop :=
  ∀ s, s < st.nextSlot → s ∈ sndsA st.pending ∨ s ∈ st.fulfilled.map Prod.fst

theorem sndsA_append_cons (l r : List (String × Nat)) (k : String) (v : Nat) :
    sndsA (l ++ (k, v) :: r) = sndsA l ++ v :: sndsA r := by
  simp [sndsA]

theorem sndsA_append (l r : List (String × Nat)) :
    sndsA (l ++ r) = sndsA l ++ sndsA r := by
  simp [sndsA]

theorem fulfillOne_cinv (reason : String) (st : CorrState) (id : String)
    (h : CInv st) : CInv (fulfillOne reason st id) := by
  cases hl : lookupA st.pending id with
  | none =>
    simp only [fulfillOne, hl]
    refine ⟨h.nkp, ?_, ?_, h.nsp, h.bp, h.nf, h.bf, h.disj⟩
    · exact ((eraseA_sublist _ _).map Prod.fst).nodup h.nkd
    · intro id'
      rw [lookupA_eraseA _ _ _ h.nkd]
      by_cases hid : id = id'
      · subst hid
        rw [if_pos rfl, hl]
      · rw [if_neg hid]
        exact h.same id'
  | some slot =>
    obtain ⟨l, r, hm, he⟩ := eraseA_decomp st.pending id slot h.nkp hl
    have hsnd : sndsA st.pending = sndsA l ++ slot :: sndsA r := by
      rw [hm, sndsA_append_cons]
    have hesnd : sndsA (eraseA st.pending id) = sndsA l ++ sndsA r := by
      rw [he, sndsA_append]
    have hslot_notin : slot ∉ sndsA l ++ sndsA r := by
      have := h.nsp
      rw [hsnd] at this
      exact (List.nodup_cons.1 (List.nodup_middle.1 this)).1
    have hslot_pend : slot ∈ sndsA st.pending := lookupA_mem_snds hl
    simp only [fulfillOne, hl]
    refine ⟨?_, ?_, ?_, ?_, ?_, ?_, ?_, ?_⟩
    · exact ((eraseA_sublist _ _).map Prod.fst).nodup h.nkp
    · exact ((eraseA_sublist _ _).map Prod.fst).nodup h.nkd
    · intro id'
      rw [lookupA_eraseA _ _ _ h.nkp, lookupA_eraseA _ _ _ h.nkd]
      by_cases hid : id = id'
      · rw [if_pos hid, if_pos hid]
      · rw [if_neg hid, if_neg hid]
        exact h.same id'
    · exact ((eraseA_sublist _ _).map Prod.snd).nodup h.nsp
    · intro s hs
      exact h.bp s (((eraseA_sublist _ _).map Prod.snd).subset hs)
    · rw [List.map_append]
      rw [List.nodup_append]
      refine ⟨h.nf, by simp, ?_⟩
      intro a ha
      simp only [List.map_cons, List.map_nil, List.mem_cons, List.not_mem_nil,
        or_false]
      intro he2
      subst he2
      exact h.disj a hslot_pend ha
    · intro s hs
      rw [List.map_append] at hs
      rcases List.mem_append.1 hs with h1 | h1
      · exact h.bf s h1
      · simp only [List.map_cons, List.map_nil, List.mem_cons, List.not_mem_nil,
          or_false] at h1
        subst h1
        exact h.bp s hslot_pend
    · intro s hs
      rw [hesnd] at hs
      have hs_orig : s ∈ sndsA st.pending := by
        rw [hsnd]
        rcases List.mem_append.1 hs with h1 | h1
        · exact List.mem_append.2 (Or.inl h1)
        · exact List.mem_append.2 (Or.inr (List.mem_cons_of_mem _ h1))
      rw [List.map_append]
      intro hmem
      rcases List.mem_append.1 hmem with h1 | h1
      · exact h.disj s hs_orig h1
      · simp only [List.map_cons, List.map_nil, List.mem_cons, List.not_mem_nil,
          or_false] at h1
        subst h1
        exact hslot_notin hs

theorem fulfillOne_comp (reason : String) (st : CorrState) (id : String)
    (h : CInv st) (hc : Comp st) : Comp (fulfillOne reason st id) := by
  cases hl : lookupA st.pending id with
  | none =>
    simp only [fulfillOne, hl]
    exact hc
  | some slot =>
    obtain ⟨l, r, hm, he⟩ := eraseA_decomp st.pending id slot h.nkp hl
    simp only [fulfillOne, hl]
    intro s hs
    rcases hc s hs with h1 | h1
    · by_cases hslot : s = slot
      · subst hslot
        right
        simp
      · left
        rw [he, sndsA_append]
        rw [hm, sndsA_append_cons] at h1
        rcases List.mem_append.1 h1 with h2 | h2
        · exact List.mem_append.2 (Or.inl h2)
        · rcases List.mem_cons.1 h2 with h3 | h3
          · exact absurd h3 hslot
          · exact List.mem_append.2 (Or.inr h3)
    · right
      rw [List.map_append]
      exact List.mem_append.2 (Or.inl h1)

theorem fulfillOne_nextSlot (reason : String) (st : CorrState) (id : String) :
    (fulfillOne reason st id).nextSlot = st.nextSlot := by
  cases hl : lookupA st.pending id <;> simp [fulfillOne, hl]

theorem fulfillOne_connected (reason : String) (st : CorrState) (id : String) :
    (fulfillOne reason st id).connected = st.connected := by
  cases hl : lookupA st.pending id <;> simp [fulfillOne, hl]

theorem fulfillOne_keys_subset (reason : String) (st : CorrState) (id : String) :
    ∀ k ∈ keysA (fulfillOne reason st id).pending, k ∈ keysA st.pending := by
  intro k hk
  cases hl : lookupA st.pending id with
  | none => simp only [fulfillOne, hl] at hk; exact hk
  | some slot =>
    simp only [fulfillOne, hl] at hk
    exact ((eraseA_sublist _ _).map Prod.fst).subset hk

theorem foldl_fulfill_cinv (reason : String) : ∀ (ids : List String) (st : CorrState),
    CInv st → CInv (ids.foldl (fulfillOne reason) st) := by
  intro ids
  induction ids with
  | nil => intro st h; exact h
  | cons id rest ih => intro st h; exact ih _ (fulfillOne_cinv reason st id h)

theorem foldl_fulfill_comp (reason : String) : ∀ (ids : List String) (st : CorrState),
    CInv st → Comp st → Comp (ids.foldl (fulfillOne reason) st) := by
  intro ids
  induction ids with
  | nil => intro st _ hc; exact hc
  | cons id rest ih =>
    intro st h hc
    exact ih _ (fulfillOne_cinv reason st id h) (fulfillOne_comp reason st id h hc)

theorem foldl_fulfill_keys_subset (reason : String) : ∀ (ids : List String)
    (st : CorrState) (k : String),
    k ∈ keysA ((ids.foldl (fulfillOne reason) st)).pending → k ∈ keysA st.pending := by
  intro ids
  induction ids with
  | nil => intro st k h; exact h
  | cons id rest ih =>
    intro st k h
    exact fulfillOne_keys_subset reason st id k (ih _ k h)

theorem foldl_fulfill_nextSlot (reason : String) : ∀ (ids : List String) (st : CorrState),
    (ids.foldl (fulfillOne reason) st).nextSlot = st.nextSlot := by
  intro ids
  induction ids with
  | nil => intro st; rfl
  | cons id rest ih =>
    intro st
    rw [List.foldl_cons, ih, fulfillOne_nextSlot]

theorem cstep_cinv (st : CorrState) (op : COp) (h : CInv st) : CInv (cstep st op) := by
  cases op with
  | insert id dl =>
    simp only [cstep]
    refine ⟨keysA_insertA_nodup _ _ _ h.nkp, keysA_insertA_nodup _ _ _ h.nkd,
      ?_, ?_, ?_, h.nf, ?_, ?_⟩
    · intro id'
      rw [lookupA_insertA, lookupA_insertA]
      by_cases hid : id = id'
      · rw [if_pos hid, if_pos hid]
        rfl
      · rw [if_neg hid, if_neg hid]
        exact h.same id'
    · exact nodup_sndsA_insertA _ _ _ h.nsp
        (fun hm => absurd (h.bp _ hm) (lt_irrefl _))
    · intro s hs
      show s < st.nextSlot + 1
      rcases mem_sndsA_insertA _ _ _ _ hs with h1 | h1
      · omega
      · have := h.bp s h1
        omega
    · intro s hs
      show s < st.nextSlot + 1
      have := h.bf s hs
      omega
    · intro s hs
      rcases mem_sndsA_insertA _ _ _ _ hs with h1 | h1
      · subst h1
        exact fun hmem => absurd (h.bf _ hmem) (lt_irrefl _)
      · exact h.disj s h1
  | respond id => exact fulfillOne_cinv "response" st id h
  | expire now => exact foldl_fulfill_cinv "Request timeout" _ st h
  | close =>
    have hmf : (st.pending.map (fun kv => ((kv.2 : Nat), ("Transport closed" : String)))).map
        Prod.fst = sndsA st.pending := by
      simp [sndsA, List.map_map, Function.comp]
    refine ⟨by simp [cstep, keysA], by simp [cstep, keysA],
      by intro id; simp [cstep, lookupA], by simp [cstep, sndsA],
      by simp [cstep, sndsA], ?_, ?_, by simp [cstep, sndsA]⟩
    · simp only [cstep, List.map_append, hmf, List.nodup_append]
      exact ⟨h.nf, h.nsp, fun a ha hs => h.disj a hs ha⟩
    · intro s hs
      simp only [cstep, List.map_append, hmf] at hs
      simp only [cstep]
      rcases List.mem_append.1 hs with h1 | h1
      · exact h.bf s h1
      · exact h.bp s h1

theorem cinit_cinv : CInv cinit := by
  refine ⟨by simp [cinit, keysA], by simp [cinit, keysA], by intro id; rfl,
    by simp [cinit, sndsA], by simp [cinit, sndsA], by simp [cinit],
    by simp [cinit], by simp [cinit, sndsA]⟩

theorem cinit_comp : Comp cinit := by
  intro s hs
  simp [cinit] at hs

theorem crun_cinv_aux : ∀ (ops : List COp) (st : CorrState),
    CInv st → CInv (ops.foldl cstep st) := by
  intro ops
  induction ops with
  | nil => intro st h; exact h
  | cons op rest ih => intro st h; exact ih _ (cstep_cinv st op h)

theorem crun_cinv (ops : List COp) : CInv (crun ops) :=
  crun_cinv_aux ops cinit cinit_cinv

theorem cstep_insert_fresh (st : CorrState) (id : String) (dl : Nat)
    (hcomp : Comp st) (hfresh : id ∉ keysA st.pending) :
    Comp (cstep st (.insert id dl)) := by
  simp only [cstep]
  intro s hs
  show s ∈ sndsA (insertA st.pending id st.nextSlot) ∨ s ∈ st.fulfilled.map Prod.fst
  rw [insertA_not_mem _ _ _ hfresh]
  have hsnd : sndsA (st.pending ++ [(id, st.nextSlot)]) =
      sndsA st.pending ++ [st.nextSlot] := by simp [sndsA]
  rw [hsnd]
  have hs' : s < st.nextSlot + 1 := hs
  by_cases hlt : s < st.nextSlot
  · rcases hcomp s hlt with h1 | h1
    · exact Or.inl (List.mem_append.2 (Or.inl h1))
    · exact Or.inr h1
  · have hse : s = st.nextSlot := by omega
    subst hse
    exact Or.inl (List.mem_append.2 (Or.inr (by simp)))

theorem cstep_close_comp (st : CorrState) (h : Comp st) : Comp (cstep st .close) := by
  intro s hs
  have hs' : s < st.nextSlot := hs
  right
  show s ∈ (st.fulfilled ++
      st.pending.map fun kv => ((kv.2 : Nat), ("Transport closed" : String))).map Prod.fst
  rw [List.map_append]
  have hmf : (st.pending.map
      (fun kv => ((kv.2 : Nat), ("Transport closed" : String)))).map Prod.fst =
      sndsA st.pending := by
    simp [sndsA, List.map_map, Function.comp]
  rw [hmf]
  rcases h s hs' with h1 | h1
  · exact List.mem_append.2 (Or.inr h1)
  · exact List.mem_append.2 (Or.inl h1)

theorem crun_resolution_aux : ∀ (ops : List COp) (st : CorrState),
    CInv st → Comp st → (insertIds ops).Nodup →
    (∀ id ∈ keysA st.pending, id ∉ insertIds ops) →
    CInv (ops.foldl cstep st) ∧ Comp (ops.foldl cstep st) := by
  intro ops
  induction ops with
  | nil => intro st h hc _ _; exact ⟨h, hc⟩
  | cons op rest ih =>
    intro st h hc hnd hfresh
    rw [List.foldl_cons]
    have hstep_cinv : CInv (cstep st op) := cstep_cinv st op h
    cases op with
    | insert id dl =>
      have hcons : insertIds (COp.insert id dl :: rest) = id :: insertIds rest := rfl
      rw [hcons] at hnd hfresh
      have hnd' := (List.nodup_cons.1 hnd).2
      have hidnot := (List.nodup_cons.1 hnd).1
      have hfresh_id : id ∉ keysA st.pending :=
        fun hm => hfresh id hm (List.mem_cons_self _ _)
      apply ih _ hstep_cinv (cstep_insert_fresh st id dl hc hfresh_id) hnd'
      intro id' hid'
      have hmem : id' = id ∨ id' ∈ keysA st.pending := by
        revert hid'
        simp only [cstep]
        exact mem_keysA_insertA st.pending id id' st.nextSlot
      rcases hmem with h1 | h1
      · subst h1; exact hidnot
      · exact fun hm => hfresh id' h1 (List.mem_cons_of_mem _ hm)
    | respond id2 =>
      have hcons : insertIds (COp.respond id2 :: rest) = insertIds rest := rfl
      rw [hcons] at hnd hfresh
      apply ih _ hstep_cinv (fulfillOne_comp "response" st id2 h hc) hnd
      intro id' hid'
      exact hfresh id' (fulfillOne_keys_subset "response" st id2 id' hid')
    | expire now =>
      have hcons : insertIds (COp.expire now :: rest) = insertIds rest := rfl
      rw [hcons] at hnd hfresh
      apply ih _ hstep_cinv (foldl_fulfill_comp "Request timeout" _ st h hc) hnd
      intro id' hid'
      exact hfresh id' (foldl_fulfill_keys_subset "Request timeout" _ st id' hid')
    | close =>
      have hcons : insertIds (COp.close :: rest) = insertIds rest := rfl
      rw [hcons] at hnd hfresh
      apply ih _ hstep_cinv (cstep_close_comp st hc) hnd
      intro id' hid'
      simp [cstep, keysA] at hid'

/-! ## Claim C3: pending-request fulfilment -/

/-- Claim C3 counterexample: two `SendRequest`s that reuse the same
    caller-set id "a".  `pendingRequests[id] = promise` overwrites the
    first entry, destroying its completion slot (slot 0) without ever
    fulfilling it: after Close only slot 1 has been fulfilled, slot 0 of
    the two created requests was never fulfilled by a response, a timeout
    or the close — its future is abandoned. -/
theorem c3_duplicate_id_counterexample :
    ((crun [.insert "a" 100, .insert "a" 100, .close]).fulfilled.map
      Prod.fst).count 0 = 0 ∧
    (crun [.insert "a" 100, .insert "a" 100, .close]).nextSlot = 2 := by
  constructor <;> decide

/-- Claim C3 (amended): in every interleaving of the mutex-guarded
    operations (SendRequest insertions, response handling, timeout
    sweeps, Close), (i) no completion slot is ever fulfilled twice,
    (ii) the pending and deadline maps always hold exactly the same ids,
    and (iii) a pending slot is never one already fulfilled; and PROVIDED
    no two SendRequests reuse the same request id AND the Close cleanup
    runs after every SendRequest insertion (the run ends with the
    `.close` step), after Close both maps are empty and every slot ever
    created has been fulfilled exactly once (by a matching response, a
    "Request timeout", or "Transport closed").  Both provisos are forced:
    a reused id overwrites the earlier pending entry and its slot is
    never fulfilled (the counterexample); and because `SendRequest`
    checks `connected.load()` outside `requestMutex`, a Close can
    complete between the check and the insertion — the final conjunct
    exhibits that run: after `.close` then `.insert`, the inserted slot
    stays pending with nothing ever fulfilling it. -/
theorem c3_fulfilled_exactly_once_amended (ops : List COp) :
    ((crun ops).fulfilled.map Prod.fst).Nodup ∧
    (∀ id, (lookupA (crun ops).pending id).isSome =
      (lookupA (crun ops).deadlines id).isSome) ∧
    (∀ s ∈ sndsA (crun ops).pending, s ∉ (crun ops).fulfilled.map Prod.fst) ∧
    ((insertIds ops).Nodup →
      (crun (ops ++ [.close])).pending = [] ∧
      (crun (ops ++ [.close])).deadlines = [] ∧
      (∀ s, s < (crun (ops ++ [.close])).nextSlot →
        ((crun (ops ++ [.close])).fulfilled.map Prod.fst).count s = 1)) ∧
    ((crun [.close, .insert "a" 5]).pending = [("a", 0)] ∧
      (crun [.close, .insert "a" 5]).fulfilled = []) := by
  refine ⟨(crun_cinv ops).nf, (crun_cinv ops).same, (crun_cinv ops).disj, ?_,
    by decide, by decide⟩
  intro hnd
  have hfold : crun (ops ++ [.close]) = cstep (crun ops) .close := by
    rw [crun, List.foldl_append, List.foldl_cons, List.foldl_nil]
    rfl
  obtain ⟨hci, hco⟩ := crun_resolution_aux ops cinit cinit_cinv cinit_comp hnd
    (by simp [cinit, keysA])
  have hci' : CInv (cstep (crun ops) .close) := cstep_cinv _ _ hci
  have hco' : Comp (cstep (crun ops) .close) := cstep_close_comp _ hco
  refine ⟨by rw [hfold]; rfl, by rw [hfold]; rfl, ?_⟩
  intro s hs
  rw [hfold] at hs ⊢
  have hmem : s ∈ (cstep (crun ops) .close).fulfilled.map Prod.fst := by
    rcases hco' s hs with h1 | h1
    · simp [cstep, sndsA] at h1
    · exact h1
  exact List.count_eq_one_of_mem hci'.nf hmem

theorem c3_fulfilled_exactly_once_amended_witness :
    (insertIds [COp.insert "a" 5, COp.respond "a", COp.insert "b" 9]).Nodup ∧
    (crun ([COp.insert "a" 5, COp.respond "a", COp.insert "b" 9] ++
      [.close])).pending = [] ∧
    (∀ s, s < (crun ([COp.insert "a" 5, COp.respond "a", COp.insert "b" 9] ++
        [.close])).nextSlot →
      ((crun ([COp.insert "a" 5, COp.respond "a", COp.insert "b" 9] ++
        [.close])).fulfilled.map Prod.fst).count s = 1) :=
  ⟨by decide,
   ((c3_fulfilled_exactly_once_amended
       [COp.insert "a" 5, COp.respond "a", COp.insert "b" 9]).2.2.2.1 (by decide)).1,
   ((c3_fulfilled_exactly_once_amended
       [COp.insert "a" 5, COp.respond "a", COp.insert "b" 9]).2.2.2.1 (by decide)).2.2⟩

/-! ## Message classification and dispatch (`processMessage`) -/

inductive Dispatch where
  | request              -- request path: handler task spawned
  | response             -- handleResponse invoked
  | notificationHandled  -- handleNotification invoked (see C6)
  | dropped              -- "Failed to parse message": logged and discarded
  deriving DecidableEq, Repr

def methodTok : List Char := "\"method\"".toList

def idTok : List Char := "\"id\"".toList

/-- `StdioTransport::Impl::processMessage`: substring pre-check for the
    tokens "method" and "id" combined with `JSONRPCRequest::Deserialize`
    and a registered request handler → spawn the request path and return;
    otherwise, if `JSONRPCResponse::Deserialize` succeeds →
    `handleResponse`; otherwise log "Failed to parse message" and drop.
    The two `Deserialize` predicates live in JSONRPCTypes (not in src/)
    and are passed in as parameters.  No branch of the function reaches
    `handleNotification`. -/
def processMessage (isRequestEnv isResponseEnv : List Char → Bool)
    (hasRequestHandler : Bool) (msg : List Char) : Dispatch :=
  if (findSub methodTok msg).isSome ∧ (findSub idTok msg).isSome ∧
      isRequestEnv msg = true ∧ hasRequestHandler = true then .request
  else if isResponseEnv msg = true then .response
  else .dropped

/-- Modelled from the spec: the `JSONRPCTypes` codec (the
    `Deserialize` members of `JSONRPCRequest` / `JSONRPCResponse` /
    `JSONRPCNotification`) is not in src/.  Spec §3: a request envelope
    has both a method and an id; a response envelope has an id and a
    result or an error; a notification envelope has a method and no id.
    Token presence stands in for field presence. -/
def specIsRequestEnv (msg : List Char) : Bool :=
  (findSub methodTok msg).isSome && (findSub idTok msg).isSome

/-- Modelled from the spec: response envelope — has id, has result or
    error (spec §3). -/
def specIsResponseEnv (msg : List Char) : Bool :=
  (findSub idTok msg).isSome &&
    ((findSub "\"result\"".toList msg).isSome ||
      (findSub "\"error\"".toList msg).isSome)

/-- Modelled from the spec: notification envelope — has method, no id
    (spec §3). -/
def specIsNotificationEnv (msg : List Char) : Bool :=
  (findSub methodTok msg).isSome && !(findSub idTok msg).isSome

/-- A well-formed JSON-RPC notification payload. -/
def notifPayload : List Char :=
  "\x7b\"jsonrpc\":\"2.0\",\"method\":\"ping\"\x7d".toList

/-- Claim C6 (code bug): `processMessage` NEVER invokes the notification
    handler — no classifier, handler flag or payload can make it produce
    the notification dispatch, and on a payload that parses as a
    notification envelope (method, no id; neither request nor response)
    it falls through to the log-and-discard branch.  `handleNotification`
    exists in the source but has no caller. -/
theorem c6_notification_never_dispatched :
    (∀ (isReq isResp : List Char → Bool) (hasHandler : Bool) (msg : List Char),
      processMessage isReq isResp hasHandler msg ≠ .notificationHandled) ∧
    (specIsNotificationEnv notifPayload = true ∧
      specIsRequestEnv notifPayload = false ∧
      specIsResponseEnv notifPayload = false ∧
      processMessage specIsRequestEnv specIsResponseEnv true notifPayload = .dropped) := by
  constructor
  · intro isReq isResp hasHandler msg
    rw [processMessage]
    split
    · intro hcon
      exact Dispatch.noConfusion hcon
    · split
      · intro hcon
        exact Dispatch.noConfusion hcon
      · intro hcon
        exact Dispatch.noConfusion hcon
  · refine ⟨by decide, by decide, by decide, by decide⟩

/-! ## The facade: `SendRequest` and `generateRequestId` -/

inductive ReqId where
  | str (s : String)
  | num (n : Int)
  deriving DecidableEq, Repr

structure RespModel where
  id : String
  isError : Bool
  errorCode : Int
  errorMessage : String
  deriving DecidableEq, Repr

/-- Modelled from the spec: `JSONRPCErrorCodes::InternalError` is defined
    in JSONRPCTypes.h (not in src/); spec §8 scenario 2 shows the
    JSON-RPC 2.0 internal-error code -32603. -/
def InternalErrorCode : Int := -32603

structure TransState where
  connected : Bool
  requestCounter : Nat
  pending : List (String × Nat)
  deadlines : List (String × Nat)
  nextSlot : Nat
  now : Nat
  requestTimeout : Nat
  wq : WQState
  cvTimeoutNotified : Bool
  deriving DecidableEq, Repr

/-- `StdioTransport::Impl::generateRequestId`:
    `"req-" + std::to_string(++requestCounter)`.  The counter is an
    `std::atomic<unsigned int>`, so the pre-increment wraps at 2^32;
    returns the id and the new counter value. -/
def generateRequestId (counter : Nat) : String × Nat :=
  ("req-" ++ String.mk (toDec ((counter + 1) % 2 ^ 32)), (counter + 1) % 2 ^ 32)

/-- Decimal rendering of an `int64_t`, as `std::to_string` produces. -/
def intDecStr (n : Int) : String :=
  if n < 0 then "-" ++ String.mk (toDec n.natAbs) else String.mk (toDec n.toNat)

inductive SendOutcome where
  | resolved (r : RespModel)   -- the returned future is already satisfied
  | pendingSlot (slot : Nat)   -- the future is tied to the new completion slot
  deriving DecidableEq, Repr

/-- `StdioTransport::SendRequest`.  `rid` is the id the caller set on the
    request (`request->id` is a string-or-int64 variant; the empty string
    means unset) and `serialized` the bytes `request->Serialize()` yields
    (serialization lives in JSONRPCTypes, outside src/).  When not
    connected: return a future already resolved with an InternalError
    "Transport not connected" whose id is freshly generated — before any
    map insertion or enqueue.  When connected: keep a caller-set id
    (non-empty string, or any int64 rendered in decimal) or else generate
    one; insert the slot and `now + requestTimeout` into the two maps;
    notify `cvTimeout`; enqueue the framed serialized request. -/
def sendRequest (rid : ReqId) (serialized : List Char) (st : TransState) :
    SendOutcome × TransState :=
  if st.connected = false then
    let g := generateRequestId st.requestCounter
    (.resolved { id := g.1, isError := true, errorCode := InternalErrorCode,
                 errorMessage := "Transport not connected" },
     { st with requestCounter := g.2 })
  else
    let idInfo :=
      match rid with
      | .str s => if s ≠ "" then (s, st.requestCounter)
                  else generateRequestId st.requestCounter
      | .num n => (intDecStr n, st.requestCounter)
    (.pendingSlot st.nextSlot,
     { st with
        requestCounter := idInfo.2
        pending := insertA st.pending idInfo.1 st.nextSlot
        deadlines := insertA st.deadlines idInfo.1 (st.now + st.requestTimeout)
        nextSlot := st.nextSlot + 1
        cvTimeoutNotified := true
        wq := (enqueueFrame serialized st.wq).st })

/-! ## Claims C9 and C10: SendRequest while disconnected -/

/-- Claim C9: a `SendRequest` made while `connected` is false returns an
    already-resolved future holding an InternalError response with
    message "Transport not connected"; nothing is added to the pending
    map or the deadline map, nothing is enqueued for writing, and the
    timeout condition is not notified. -/
theorem c9_sendRequest_disconnected (rid : ReqId) (serialized : List Char)
    (st : TransState) (h : st.connected = false) :
    (∃ r, (sendRequest rid serialized st).1 = .resolved r ∧
      r.isError = true ∧ r.errorCode = InternalErrorCode ∧
      r.errorMessage = "Transport not connected") ∧
    (sendRequest rid serialized st).2.pending = st.pending ∧
    (sendRequest rid serialized st).2.deadlines = st.deadlines ∧
    (sendRequest rid serialized st).2.wq = st.wq ∧
    (sendRequest rid serialized st).2.cvTimeoutNotified = st.cvTimeoutNotified := by
  simp only [sendRequest, if_pos h]
  refine ⟨⟨_, rfl, rfl, rfl, rfl⟩, ?_, ?_, ?_, ?_⟩ <;> trivial

/-- A disconnected transport with an unrelated request already pending. -/
def tdisc : TransState :=
  { connected := false, requestCounter := 7, pending := [("x", 0)],
    deadlines := [("x", 50)], nextSlot := 1, now := 100,
    requestTimeout := 30000, wq := winit, cvTimeoutNotified := false }

theorem c9_sendRequest_disconnected_witness :
    tdisc.connected = false ∧
    ((∃ r, (sendRequest (.str "x") "p".toList tdisc).1 = .resolved r ∧
        r.isError = true ∧ r.errorCode = InternalErrorCode ∧
        r.errorMessage = "Transport not connected") ∧
      (sendRequest (.str "x") "p".toList tdisc).2.pending = tdisc.pending ∧
      (sendRequest (.str "x") "p".toList tdisc).2.deadlines = tdisc.deadlines ∧
      (sendRequest (.str "x") "p".toList tdisc).2.wq = tdisc.wq ∧
      (sendRequest (.str "x") "p".toList tdisc).2.cvTimeoutNotified =
        tdisc.cvTimeoutNotified) :=
  ⟨rfl, c9_sendRequest_disconnected (.str "x") "p".toList tdisc rfl⟩

/-- Claim C10: the InternalError response that `SendRequest` returns when
    the transport is not connected carries the freshly generated id
    `"req-" ++ <incremented counter>` (`++requestCounter`, wrapping at
    2^32) — not the id the caller set on the request — so the caller
    cannot correlate that error response to their request by id unless
    their id happens to equal the generated one. -/
theorem c10_disconnected_response_id (rid : ReqId) (serialized : List Char)
    (st : TransState) (h : st.connected = false) :
    (∃ r, (sendRequest rid serialized st).1 = .resolved r ∧
      r.id = "req-" ++ String.mk (toDec ((st.requestCounter + 1) % 2 ^ 32)) ∧
      (∀ cid : String, rid = .str cid →
        cid ≠ "req-" ++ String.mk (toDec ((st.requestCounter + 1) % 2 ^ 32)) →
        r.id ≠ cid)) ∧
    (sendRequest rid serialized st).2.requestCounter =
      (st.requestCounter + 1) % 2 ^ 32 := by
  simp only [sendRequest, if_pos h, generateRequestId]
  refine ⟨⟨_, rfl, rfl, fun cid _ hne he => hne he.symm⟩, ?_⟩
  trivial

theorem c10_disconnected_response_id_witness :
    tdisc.connected = false ∧
    ((∃ r, (sendRequest (.str "caller-id") "p".toList tdisc).1 = .resolved r ∧
        r.id = "req-" ++ String.mk (toDec ((tdisc.requestCounter + 1) % 2 ^ 32)) ∧
        (∀ cid : String, (ReqId.str "caller-id") = .str cid →
          cid ≠ "req-" ++ String.mk (toDec ((tdisc.requestCounter + 1) % 2 ^ 32)) →
          r.id ≠ cid)) ∧
      (sendRequest (.str "caller-id") "p".toList tdisc).2.requestCounter =
        (tdisc.requestCounter + 1) % 2 ^ 32) :=
  ⟨rfl, c10_disconnected_response_id (.str "caller-id") "p".toList tdisc rfl⟩

theorem c5_queuedbytes_invariant_witness :
    (wrun [.enq [], .deq, .account]).queuedBytes =
      sumLen (wrun [.enq [], .deq, .account]).writeQueue +
        sumLen (wrun [.enq [], .deq, .account]).inFlight ∧
    (wrun [.enq [], .deq, .account]).queuedBytes ≤
      (wrun [.enq [], .deq, .account]).writeQueueMaxBytes :=
  c5_queuedbytes_invariant [.enq [], .deq, .account]

theorem c6_notification_never_dispatched_witness :
    processMessage specIsRequestEnv specIsResponseEnv true notifPayload ≠
      Dispatch.notificationHandled ∧
    processMessage specIsRequestEnv specIsResponseEnv true notifPayload =
      Dispatch.dropped :=
  ⟨c6_notification_never_dispatched.1 specIsRequestEnv specIsResponseEnv true
      notifPayload,
   c6_notification_never_dispatched.2.2.2.2⟩
